import Mathlib

/-!
# Standalone component loader: YAML document splitter and decode pipeline

A shallow embedding of `pkg/components/standalone_loader.go`:

* `splitYamlDoc`, the `bufio.SplitFunc` that cuts a byte stream into YAML documents;
* the `bufio.Scanner` that drives it over a `bytes.Reader`;
* `decode` and `decodeYaml`, the per-document decode and kind filter.

Byte slices are lists of bytes, Go `int` offsets are integers, a slice expression
out of bounds is a panic (`none`), and loops that the source leaves unbounded take
an explicit fuel argument.
-/

namespace Components

/-! ## Bytes and the Go library functions used by the splitter -/

/-- One byte of a Go byte slice. -/
abbrev Byte := UInt8

/-- The bytes of an ASCII string literal. -/
def bytes (s : String) : List Byte := s.toList.map (fun c => c.toNat.toUInt8)

/-- The constant yamlSeparator of the source, a newline followed by three dashes. -/
def yamlSeparator : List Byte := bytes "\n---"

/-- The constant componentKind of the source. -/
def componentKind : String := "Component"

/-- The newline byte. -/
def newline : Byte := 10

/-- Offset of the first occurrence of sep in s, if there is one. -/
def index? (s sep : List Byte) : Option Nat :=
  if sep.isPrefixOf s then some 0
  else
    match s with
    | [] => none
    | _ :: t => (index? t sep).map (· + 1)

/-- Offset of the first occurrence of the byte c in s, if there is one. -/
def indexByte? (s : List Byte) (c : Byte) : Option Nat :=
  match s with
  | [] => none
  | x :: t => if x = c then some 0 else (indexByte? t c).map (· + 1)

/-- Go bytes.Index: the offset of the first instance of sep in s, or -1. -/
def bytesIndex (s sep : List Byte) : Int :=
  match index? s sep with
  | some k => (k : Int)
  | none => -1

/-- Go bytes.IndexByte: the offset of the first instance of c in s, or -1. -/
def bytesIndexByte (s : List Byte) (c : Byte) : Int :=
  match indexByte? s c with
  | some k => (k : Int)
  | none => -1

/-- The Go slice expression s[lo:hi]; none is the run-time panic for bounds out of range. -/
def goSlice (s : List Byte) (lo hi : Int) : Option (List Byte) :=
  if 0 ≤ lo ∧ lo ≤ hi ∧ hi ≤ (s.length : Int) then some ((s.take hi.toNat).drop lo.toNat)
  else none

/-! ## Errors -/

/-- The error values of the bufio and io packages that a Scanner can hold. -/
inductive ScanErr where
  | EOF
  | ErrTooLong
  | ErrNegativeAdvance
  | ErrAdvanceTooFar
  | ErrBadReadCount
  | ErrNoProgress
  | ErrFinalToken
  deriving DecidableEq, Repr

/-! ## The split function -/

/-- The three results of a bufio.SplitFunc: advance, token (none is the nil slice) and error. -/
structure SplitResult where
  advance : Int
  token : Option (List Byte)
  err : Option ScanErr
  deriving DecidableEq, Repr

/-- The source function splitYamlDoc. The outer none is a run-time panic. -/
def splitYamlDoc (data : List Byte) (atEOF : Bool) : Option SplitResult :=
  if atEOF = true ∧ data.length = 0 then some ⟨0, none, none⟩
  else
    let sep : Int := (yamlSeparator.length : Int)
    let i := bytesIndex data yamlSeparator
    if i ≥ 0 then
      let i := i + sep
      (goSlice data i data.length).bind fun after =>
        if after.length = 0 then
          if atEOF = true then
            (goSlice data 0 ((data.length : Int) - sep)).bind fun tok =>
              some ⟨data.length, some tok, none⟩
          else some ⟨0, none, none⟩
        else
          let j := bytesIndexByte after newline
          if j ≥ 0 then
            (goSlice data 0 (i - sep)).bind fun tok => some ⟨i + j + 1, some tok, none⟩
          else some ⟨0, none, none⟩
    else if atEOF = true then some ⟨data.length, some data, none⟩
    else some ⟨0, none, none⟩

/-- Closed form of splitYamlDoc in natural-number offsets (advance and token); the theorem
splitYamlDoc_eq shows that the source function computes exactly this and never panics. -/
def splitSpec (data : List Byte) (atEOF : Bool) : Nat × Option (List Byte) :=
  match index? data yamlSeparator with
  | none => if atEOF = true ∧ data ≠ [] then (data.length, some data) else (0, none)
  | some k =>
    if data.length = k + 4 then
      if atEOF = true then (data.length, some (data.take k)) else (0, none)
    else
      match indexByte? (data.drop (k + 4)) newline with
      | some j => (k + 4 + j + 1, some (data.take k))
      | none => (0, none)

/-! ## Driving the split function

The drivers below follow the loop of bufio.Scanner.Scan with an unbounded buffer:
the split function is applied to the unconsumed bytes, the buffer advances by the
returned amount, and a call that yields no token asks for more input. -/

/-- An emitted token together with the advance that was returned with it. -/
structure Emit where
  advance : Int
  token : List Byte
  deriving DecidableEq, Repr

/-- The end-of-stream phase: splitYamlDoc is applied with atEOF = true to the unconsumed
bytes until it yields no token. The result none means a panic or exhausted fuel. -/
def drainEOF : Nat → List Byte → Option (List Emit)
  | 0, _ => none
  | fuel + 1, buf =>
    match splitYamlDoc buf true with
    | none => none
    | some r =>
      match r.token with
      | none => some []
      | some tok => (drainEOF fuel (buf.drop r.advance.toNat)).map (fun es => ⟨r.advance, tok⟩ :: es)

/-- The streaming phase: splitYamlDoc is applied with atEOF = false to the unconsumed bytes;
when it asks for more input the next chunk is appended, and once every chunk has
arrived the end-of-stream phase takes over. -/
def feed : Nat → List Byte → List (List Byte) → Option (List Emit)
  | 0, _, _ => none
  | fuel + 1, buf, chunks =>
    match splitYamlDoc buf false with
    | none => none
    | some r =>
      match r.token with
      | some tok =>
        (feed fuel (buf.drop r.advance.toNat) chunks).map (fun es => ⟨r.advance, tok⟩ :: es)
      | none =>
        match chunks with
        | c :: cs => feed fuel (buf.drop r.advance.toNat ++ c) cs
        | [] => drainEOF fuel (buf.drop r.advance.toNat)

/-- Running the splitter to completion over a stream that arrives in the given chunks. -/
def scanStream (chunks : List (List Byte)) : Option (List Emit) :=
  feed (chunks.flatten.length + chunks.length + 2) [] chunks

/-- Running the splitter to completion over a stream that arrives as one chunk. -/
def splitAll (data : List Byte) : Option (List Emit) := scanStream [data]

/-- The token sequence of a completed run. -/
def tokensOf (r : Option (List Emit)) : Option (List (List Byte)) :=
  r.map (fun es => es.map Emit.token)

/-- The number of occurrences of the separator in a stream: the offsets at which a
newline followed by three dashes starts. -/
def countSep : List Byte → Nat
  | [] => 0
  | c :: t => (if yamlSeparator <+: c :: t then 1 else 0) + countSep t

/-! ## The bufio.Scanner over a bytes.Reader

The Go standard library types that decodeYaml drives. The buffer is kept as its length
(len(s.buf)), the offset s.start, and the unconsumed bytes s.buf[s.start:s.end], so that
s.end is start plus the number of unconsumed bytes. -/

/-- Outcome of running Go code: a value, a run-time panic, or a loop that used up its fuel. -/
inductive Run (α : Type) where
  | done (a : α)
  | panic
  | outOfFuel

/-- The constant bufio.MaxScanTokenSize. -/
def MaxScanTokenSize : Nat := 64 * 1024

/-- The constant startBufSize of package bufio. -/
def startBufSize : Nat := 4096

/-- The constant maxConsecutiveEmptyReads of package bufio. -/
def maxConsecutiveEmptyReads : Nat := 100

/-- The largest value of a Go int on a 64-bit platform. -/
def maxInt : Nat := 2 ^ 63 - 1

/-- The state of a bufio.Scanner whose source is a bytes.Reader. -/
structure Scanner where
  /-- the bytes.Reader: the bytes it has not delivered yet -/
  r : List Byte
  /-- the split function -/
  split : List Byte → Bool → Option SplitResult
  maxTokenSize : Nat
  /-- the last token returned by split (none is the nil slice) -/
  token : Option (List Byte)
  /-- len(s.buf) -/
  bufLen : Nat
  start : Nat
  /-- s.buf[s.start:s.end] -/
  data : List Byte
  err : Option ScanErr
  empties : Nat
  done : Bool

/-- The call bufio.NewScanner(bytes.NewReader(b)) followed by Scanner.Split(split). -/
def newScanner (b : List Byte) (split : List Byte → Bool → Option SplitResult) : Scanner :=
  { r := b, split := split, maxTokenSize := MaxScanTokenSize, token := none,
    bufLen := 0, start := 0, data := [], err := none, empties := 0, done := false }

/-- Scanner.setErr: records an error unless a real error is already recorded. -/
def Scanner.setErr (s : Scanner) (e : ScanErr) : Scanner :=
  if s.err = none ∨ s.err = some ScanErr.EOF then { s with err := some e } else s

/-- Scanner.Err: the first non-EOF error met by the Scanner. -/
def Scanner.Err (s : Scanner) : Option ScanErr :=
  if s.err = some ScanErr.EOF then none else s.err

/-- Scanner.Bytes: the most recent token. -/
def Scanner.Bytes (s : Scanner) : List Byte := s.token.getD []

/-- bytes.Reader.Read into a slice of length room: the bytes copied, the reader afterwards,
and the error. -/
def readerRead (r : List Byte) (room : Nat) : List Byte × List Byte × Option ScanErr :=
  if r.length = 0 then ([], r, some ScanErr.EOF) else (r.take room, r.drop room, none)

/-- The read loop at the end of an iteration of Scan; k counts down the empty reads that
are still allowed. -/
def Scanner.fill : Nat → Scanner → Scanner
  | k, s =>
    let room := s.bufLen - (s.start + s.data.length)
    let res := readerRead s.r room
    if room < res.1.length then { s with r := res.2.1 }.setErr ScanErr.ErrBadReadCount
    else
      let s1 : Scanner := { s with r := res.2.1, data := s.data ++ res.1 }
      match res.2.2 with
      | some e => s1.setErr e
      | none =>
        if res.1.length > 0 then { s1 with empties := 0 }
        else
          match k with
          | 0 => s1.setErr ScanErr.ErrNoProgress
          | k + 1 => Scanner.fill k s1

/-- Where an iteration of the loop of Scan goes: Scan returns, the iteration goes on,
or the program panics. -/
inductive Flow where
  | ret (more : Bool) (s : Scanner)
  | next (s : Scanner)
  | panic

/-- First part of an iteration of Scan: offer the buffered bytes to the split function
and advance (Scanner.advance is inlined). -/
def Scanner.trySplit (s : Scanner) : Flow :=
  if s.data.length > 0 ∨ s.err ≠ none then
    match s.split s.data (decide (s.err ≠ none)) with
    | none => Flow.panic
    | some out =>
      match out.err with
      | some e =>
        if e = ScanErr.ErrFinalToken then Flow.ret true { s with token := out.token, done := true }
        else Flow.ret false (s.setErr e)
      | none =>
        if out.advance < 0 then Flow.ret false (s.setErr ScanErr.ErrNegativeAdvance)
        else if out.advance > (s.data.length : Int) then
          Flow.ret false (s.setErr ScanErr.ErrAdvanceTooFar)
        else
          let s1 : Scanner :=
            { s with start := s.start + out.advance.toNat,
                     data := s.data.drop out.advance.toNat, token := out.token }
          match out.token with
          | some _ =>
            if s1.err = none ∨ out.advance > 0 then Flow.ret true { s1 with empties := 0 }
            else if s1.empties + 1 > maxConsecutiveEmptyReads then Flow.panic
            else Flow.ret true { s1 with empties := s1.empties + 1 }
          | none => Flow.next s1
  else Flow.next s

/-- Second part of an iteration of Scan: stop on a recorded error, else make room in the
buffer (shift the data down, double the buffer, or fail with ErrTooLong). -/
def Scanner.grow (s : Scanner) : Flow :=
  if s.err ≠ none then Flow.ret false { s with start := 0, data := [] }
  else
    let s1 : Scanner :=
      if s.start > 0 ∧ (s.start + s.data.length = s.bufLen ∨ s.start > s.bufLen / 2) then
        { s with start := 0 }
      else s
    if s1.start + s1.data.length = s1.bufLen then
      if s1.bufLen ≥ s1.maxTokenSize ∨ s1.bufLen > maxInt / 2 then
        Flow.ret false (s1.setErr ScanErr.ErrTooLong)
      else
        let newSize := s1.bufLen * 2
        let newSize := if newSize = 0 then startBufSize else newSize
        let newSize := if newSize > s1.maxTokenSize then s1.maxTokenSize else newSize
        Flow.next { s1 with bufLen := newSize, start := 0 }
    else Flow.next s1

/-- One iteration of the loop of Scan: the split attempt, the buffer management and the
read loop. -/
def Scanner.iter (s : Scanner) : Flow :=
  match s.trySplit with
  | Flow.panic => Flow.panic
  | Flow.ret more s1 => Flow.ret more s1
  | Flow.next s1 =>
    match s1.grow with
    | Flow.panic => Flow.panic
    | Flow.ret more s2 => Flow.ret more s2
    | Flow.next s2 => Flow.next (s2.fill maxConsecutiveEmptyReads)

/-- The loop of Scanner.Scan. -/
def Scanner.scanLoop : Nat → Scanner → Run (Bool × Scanner)
  | 0, _ => Run.outOfFuel
  | fuel + 1, s =>
    match s.iter with
    | Flow.panic => Run.panic
    | Flow.ret more s1 => Run.done (more, s1)
    | Flow.next s1 => Scanner.scanLoop fuel s1

/-- Scanner.Scan: advances to the next token and reports whether there is one. Every
iteration that goes round either takes bytes from the reader or records an error, so the
number of unread bytes plus two bounds the iterations. -/
def Scanner.Scan (s : Scanner) : Run (Bool × Scanner) :=
  if s.done then Run.done (false, s) else Scanner.scanLoop (s.r.length + 2) s

/-- Well-formedness of a Scanner that drives splitYamlDoc: the buffered bytes fit in the
buffer and the buffer has not outgrown the maximum token size. -/
structure Scanner.Inv (s : Scanner) : Prop where
  split_eq : s.split = splitYamlDoc
  not_done : s.done = false
  buf_le : s.start + s.data.length ≤ s.bufLen
  len_le : s.bufLen ≤ s.maxTokenSize
  max_le : s.maxTokenSize ≤ maxInt / 2

/-- A Scanner that can still deliver tokens: no error yet, or end of input seen by an
exhausted reader. -/
def Scanner.Ready (s : Scanner) : Prop :=
  s.err = none ∨ (s.err = some ScanErr.EOF ∧ s.r = [])

/-! ## decode and decodeYaml -/

/-- A decoded document: the kind field and the rest of the resource. -/
structure Component (ρ : Type) where
  Kind : String
  rest : ρ
  deriving DecidableEq, Repr

/-- The errors decode can return: those of the Scanner (with io.EOF) and those of
yaml.Unmarshal. The decoder reports malformed documents and never returns the sentinel
io.EOF, so its errors are a constructor of their own. -/
inductive Err (E : Type) where
  | io (e : ScanErr)
  | yaml (e : E)

/-- The source function decode, with yaml.Unmarshal as the parameter unmarshal: the
scanner afterwards, and the error or the decoded component. -/
def decode {E ρ : Type} (unmarshal : List Byte → Except E (Component ρ)) (scanner : Scanner) :
    Run (Scanner × Except (Err E) (Component ρ)) :=
  match scanner.Scan with
  | Run.panic => Run.panic
  | Run.outOfFuel => Run.outOfFuel
  | Run.done (true, s) =>
    match unmarshal s.Bytes with
    | Except.ok c => Run.done (s, Except.ok c)
    | Except.error e => Run.done (s, Except.error (Err.yaml e))
  | Run.done (false, s) =>
    match s.Err with
    | none => Run.done (s, Except.error (Err.io ScanErr.EOF))
    | some e => Run.done (s, Except.error (Err.io e))

/-- The variables of the loop of decodeYaml. -/
structure LoopState (E ρ : Type) where
  scanner : Scanner
  list : List (Component ρ)
  errors : List (Err E)

/-- One iteration of the loop of decodeYaml: the returned lists when the loop breaks,
else the variables for the next iteration. -/
def decodeYamlStep {E ρ : Type} (unmarshal : List Byte → Except E (Component ρ))
    (st : LoopState E ρ) :
    Run ((List (Component ρ) × List (Err E)) ⊕ LoopState E ρ) :=
  match decode unmarshal st.scanner with
  | Run.panic => Run.panic
  | Run.outOfFuel => Run.outOfFuel
  | Run.done (_, Except.error (Err.io ScanErr.EOF)) => Run.done (Sum.inl (st.list, st.errors))
  | Run.done (sc, Except.error e) =>
    Run.done (Sum.inr { scanner := sc, list := st.list, errors := st.errors ++ [e] })
  | Run.done (sc, Except.ok comp) =>
    if comp.Kind ≠ componentKind then
      Run.done (Sum.inr { scanner := sc, list := st.list, errors := st.errors })
    else Run.done (Sum.inr { scanner := sc, list := st.list ++ [comp], errors := st.errors })

/-- The loop of decodeYaml, run for at most fuel iterations. -/
def decodeYamlLoop {E ρ : Type} (unmarshal : List Byte → Except E (Component ρ)) :
    Nat → LoopState E ρ → Run (List (Component ρ) × List (Err E))
  | 0, _ => Run.outOfFuel
  | fuel + 1, st =>
    match decodeYamlStep unmarshal st with
    | Run.panic => Run.panic
    | Run.outOfFuel => Run.outOfFuel
    | Run.done (Sum.inl res) => Run.done res
    | Run.done (Sum.inr st1) => decodeYamlLoop unmarshal fuel st1

/-- The variables of the loop of decodeYaml after n iterations, or the returned lists when
the loop has exited before. -/
def decodeYamlIter {E ρ : Type} (unmarshal : List Byte → Except E (Component ρ)) :
    Nat → LoopState E ρ → Run ((List (Component ρ) × List (Err E)) ⊕ LoopState E ρ)
  | 0, st => Run.done (Sum.inr st)
  | n + 1, st =>
    match decodeYamlStep unmarshal st with
    | Run.panic => Run.panic
    | Run.outOfFuel => Run.outOfFuel
    | Run.done (Sum.inl res) => Run.done (Sum.inl res)
    | Run.done (Sum.inr st1) => decodeYamlIter unmarshal n st1

/-- The source function decodeYaml, its loop run for at most fuel iterations. -/
def decodeYaml {E ρ : Type} (unmarshal : List Byte → Except E (Component ρ)) (fuel : Nat)
    (b : List Byte) : Run (List (Component ρ) × List (Err E)) :=
  decodeYamlLoop unmarshal fuel { scanner := newScanner b splitYamlDoc, list := [], errors := [] }

/-- The component that one document contributes to the result: the decoded document when
decoding succeeds and its kind is componentKind, nothing otherwise. -/
def acceptDoc {E ρ : Type} (unmarshal : List Byte → Except E (Component ρ)) (t : List Byte) :
    Option (Component ρ) :=
  match unmarshal t with
  | Except.ok c => if c.Kind = componentKind then some c else none
  | Except.error _ => none

/-- The error that one document contributes to the result: the decode error when decoding
fails, nothing otherwise. -/
def rejectDoc {E ρ : Type} (unmarshal : List Byte → Except E (Component ρ)) (t : List Byte) :
    Option (Err E) :=
  match unmarshal t with
  | Except.ok _ => none
  | Except.error e => some (Err.yaml e)

/-- A separator line: the separator followed by the newline that ends its line. -/
def separatorLine : List Byte := yamlSeparator ++ [newline]

/-- The stream made of the given documents with a separator line between neighbours. -/
def joinDocs : List (List Byte) → List Byte
  | [] => []
  | [d] => d
  | d :: d2 :: rest => d ++ separatorLine ++ joinDocs (d2 :: rest)

/-- The example input of the specification: three documents of kinds Component, Other and
Component, with a separator line between them and no trailing newline. -/
def specExample : List Byte :=
  bytes "kind: Component\nspec:\n  a: 1\n---\nkind: Other\n---\nkind: Component\nspec:\n  b: 2"

/-- The three documents of the example input. -/
def specExampleDocs : List (List Byte) :=
  [bytes "kind: Component\nspec:\n  a: 1", bytes "kind: Other",
   bytes "kind: Component\nspec:\n  b: 2"]

/-- A stand-in for yaml.Unmarshal on the example input: it reads the kind from the first
line of a document and keeps the bytes of the document as the rest of the resource. -/
def specExampleUnmarshal (t : List Byte) : Except String (Component (List Byte)) :=
  if bytes "kind: Component" <+: t then Except.ok ⟨"Component", t⟩
  else if bytes "kind: Other" <+: t then Except.ok ⟨"Other", t⟩
  else Except.error "yaml: unknown kind"

/-! ## File names: filepath.Ext, strings.ToLower and isYaml

Go strings are byte sequences, so file names are lists of bytes. -/

/-- The byte of the dot character. -/
def dotByte : Byte := 46

/-- The byte of the slash character. -/
def slashByte : Byte := 47

/-- Go os.IsPathSeparator on Unix-like systems. -/
def IsPathSeparator (c : Byte) : Bool := c == slashByte

/-- The loop of filepath.Ext: i+1 is the loop variable plus one, so that the loop ends at 0. -/
def extLoop (path : List Byte) : Nat → List Byte
  | 0 => []
  | i + 1 =>
    if IsPathSeparator (path.getD i 0) = true then []
    else if path.getD i 0 = dotByte then path.drop i
    else extLoop path i

/-- Go filepath.Ext: the suffix beginning at the final dot in the final element of path,
empty if there is no dot. -/
def Ext (path : List Byte) : List Byte := extLoop path path.length

/-- The lower-case form of an ASCII byte. -/
def lowerByte (c : Byte) : Byte := if 65 ≤ c ∧ c ≤ 90 then c + 32 else c

/-- Go strings.ToLower. A string of ASCII bytes is lower-cased byte by byte; for a string
with a byte outside ASCII the result of strings.Map(unicode.ToLower, s), which depends on
the Unicode tables, is the parameter mapLower. -/
def ToLower (mapLower : List Byte → List Byte) (s : List Byte) : List Byte :=
  if s.all (fun c => c < 128) = true then
    if s.any (fun c => 65 ≤ c ∧ c ≤ 90) = true then s.map lowerByte else s
  else mapLower s

/-- The source function isYaml. -/
def isYaml (mapLower : List Byte → List Byte) (fileName : List Byte) : Bool :=
  let extension := ToLower mapLower (Ext fileName)
  if extension = bytes ".yaml" ∨ extension = bytes ".yml" then true else false

/-! ## LoadComponents

The file system is seen through the two calls the source makes: ioutil.ReadDir on the
components path, whose result is the parameter readDir, and ioutil.ReadFile on the path of
a file of that directory, the parameter readFile, a function of the file name. Warnings
written to the log are collected in a list. -/

/-- What LoadComponents uses of an os.FileInfo. -/
structure FileInfo where
  Name : List Byte
  IsDir : Bool
  deriving DecidableEq, Repr

/-- A warning written by loadComponentsFromFile: the file could not be read, or one of its
documents could not be parsed. -/
inductive Warning (R E : Type) where
  | readFile (fileName : List Byte) (err : R)
  | parse (fileName : List Byte) (err : Err E)

/-- The source function loadComponentsFromFile: the components of one file and the warnings
it logs. -/
def loadComponentsFromFile {R E ρ : Type} (unmarshal : List Byte → Except E (Component ρ))
    (readFile : List Byte → Except R (List Byte)) (fuel : Nat) (filename : List Byte) :
    Run (List (Component ρ) × List (Warning R E)) :=
  match readFile filename with
  | Except.error err => Run.done ([], [Warning.readFile filename err])
  | Except.ok b =>
    match decodeYaml unmarshal fuel b with
    | Run.panic => Run.panic
    | Run.outOfFuel => Run.outOfFuel
    | Run.done (components, errors) =>
      Run.done (components, errors.map (Warning.parse filename))

/-- The loop of LoadComponents over the files of the directory. -/
def loadComponentsLoop {R E ρ : Type} (unmarshal : List Byte → Except E (Component ρ))
    (mapLower : List Byte → List Byte) (readFile : List Byte → Except R (List Byte))
    (fuel : Nat) :
    List FileInfo → List (Component ρ) → List (Warning R E) →
      Run (List (Component ρ) × List (Warning R E))
  | [], list, log => Run.done (list, log)
  | file :: files, list, log =>
    if file.IsDir = false ∧ isYaml mapLower file.Name = true then
      match loadComponentsFromFile unmarshal readFile fuel file.Name with
      | Run.panic => Run.panic
      | Run.outOfFuel => Run.outOfFuel
      | Run.done (components, warnings) =>
        loadComponentsLoop unmarshal mapLower readFile fuel files
          (if components.length > 0 then list ++ components else list) (log ++ warnings)
    else loadComponentsLoop unmarshal mapLower readFile fuel files list log

/-- The source function LoadComponents: the error of ReadDir or the list of components,
together with the warnings logged; each call of decodeYaml runs for at most fuel
iterations. -/
def LoadComponents {D R E ρ : Type} (unmarshal : List Byte → Except E (Component ρ))
    (mapLower : List Byte → List Byte) (readDir : Except D (List FileInfo))
    (readFile : List Byte → Except R (List Byte)) (fuel : Nat) :
    Run (Except D (List (Component ρ)) × List (Warning R E)) :=
  match readDir with
  | Except.error err => Run.done (Except.error err, [])
  | Except.ok files =>
    match loadComponentsLoop unmarshal mapLower readFile fuel files [] [] with
    | Run.panic => Run.panic
    | Run.outOfFuel => Run.outOfFuel
    | Run.done (list, log) => Run.done (Except.ok list, log)

/-- What one directory entry contributes to the result of LoadComponents: the component
list of decodeYaml on its content when the entry is not a directory, has a YAML name and is
readable, and nothing otherwise. -/
def fileContribution {R E ρ : Type} (unmarshal : List Byte → Except E (Component ρ))
    (mapLower : List Byte → List Byte) (readFile : List Byte → Except R (List Byte))
    (fuel : Nat) (file : FileInfo) : List (Component ρ) :=
  if file.IsDir = false ∧ isYaml mapLower file.Name = true then
    match readFile file.Name with
    | Except.error _ => []
    | Except.ok b =>
      match decodeYaml unmarshal fuel b with
      | Run.done res => res.1
      | _ => []
  else []

/-- A components directory, in the order of ReadDir (sorted by file name), with a YAML file
that holds one document of 65536 bytes and a YAML file that holds one Component. -/
def longDocumentDir : List FileInfo :=
  [⟨bytes "big.yaml", false⟩, ⟨bytes "small.yaml", false⟩]

/-- The contents of the files of longDocumentDir: big.yaml holds 65536 bytes a, small.yaml
the document kind: Component. -/
def longDocumentReadFile {R : Type} (name : List Byte) : Except R (List Byte) :=
  if name = bytes "big.yaml" then Except.ok (List.replicate 65536 97)
  else Except.ok (bytes "kind: Component")

/-! ## Searching: first occurrences -/

theorem yamlSeparator_eq : yamlSeparator = [10, 45, 45, 45] := by decide

theorem yamlSeparator_length : yamlSeparator.length = 4 := by decide

theorem index?_nil (sep : List Byte) : index? [] sep = if sep = [] then some 0 else none := by
  unfold index?
  cases sep <;> simp [List.isPrefixOf]

theorem index?_cons (c : Byte) (t sep : List Byte) :
    index? (c :: t) sep
      = if sep <+: c :: t then some 0 else (index? t sep).map (· + 1) := by
  conv_lhs => unfold index?
  simp only [List.isPrefixOf_iff_prefix]

theorem index?_eq_some_iff (s sep : List Byte) (k : Nat) :
    index? s sep = some k ↔ sep <+: s.drop k ∧ ∀ i < k, ¬ sep <+: s.drop i := by
  induction s generalizing k with
  | nil =>
    rw [index?_nil]
    by_cases h : sep = []
    · subst h
      simp only [if_true, Option.some.injEq, List.drop_nil, List.nil_prefix, true_and, not_true_eq_false]
      constructor
      · intro h i hi; omega
      · intro h
        by_contra hk
        exact h 0 (by omega)
    · simp [h]
  | cons c t ih =>
    rw [index?_cons]
    by_cases h : sep <+: c :: t
    · simp only [h, if_true, Option.some.injEq]
      constructor
      · intro hk
        subst hk
        exact ⟨by simpa using h, fun i hi => absurd hi (Nat.not_lt_zero i)⟩
      · intro hk
        by_contra hne
        exact hk.2 0 (by omega) (by simpa using h)
    · simp only [h, if_false, Option.map_eq_some']
      constructor
      · rintro ⟨j, hj, rfl⟩
        rw [ih] at hj
        refine ⟨by simpa using hj.1, ?_⟩
        intro i hi
        cases i with
        | zero => simpa using h
        | succ i => simpa using hj.2 i (by omega)
      · intro hk
        cases k with
        | zero => exact absurd (by simpa using hk.1) h
        | succ k =>
          refine ⟨k, ?_, rfl⟩
          rw [ih]
          refine ⟨by simpa using hk.1, ?_⟩
          intro i hi
          simpa using hk.2 (i + 1) (by omega)

theorem index?_eq_none_iff (s sep : List Byte) :
    index? s sep = none ↔ ∀ i, ¬ sep <+: s.drop i := by
  induction s with
  | nil =>
    rw [index?_nil]
    by_cases h : sep = []
    · subst h; simp
    · simp [h]
  | cons c t ih =>
    rw [index?_cons]
    by_cases h : sep <+: c :: t
    · simp only [h, if_true]
      constructor
      · intro h0; cases h0
      · intro h0; exact absurd (by simpa using h) (h0 0)
    · simp only [h, if_false, Option.map_eq_none']
      rw [ih]
      constructor
      · intro h0 i
        cases i with
        | zero => simpa using h
        | succ i => simpa using h0 i
      · intro h0 i
        simpa using h0 (i + 1)

theorem index?_bound {s sep : List Byte} {k : Nat} (h : index? s sep = some k) :
    k + sep.length ≤ s.length := by
  rw [index?_eq_some_iff] at h
  have := h.1.length_le
  simp only [List.length_drop] at this
  by_cases hk : k ≤ s.length
  · omega
  · have h0 : s.drop k = [] := List.drop_eq_nil_of_le (by omega)
    rw [h0] at h
    have hs : sep = [] := List.prefix_nil.mp h.1
    subst hs
    exact absurd (List.nil_prefix) (h.2 0 (by omega))

theorem drop_append_of_le {α : Type} (p q : List α) (i : Nat) (h : i ≤ p.length) :
    (p ++ q).drop i = p.drop i ++ q := by
  rw [List.drop_append_eq_append_drop]
  have : i - p.length = 0 := by omega
  simp [this]

theorem index?_append {p sep : List Byte} {k : Nat} (q : List Byte)
    (h : index? p sep = some k) : index? (p ++ q) sep = some k := by
  have hb := index?_bound h
  rw [index?_eq_some_iff] at h ⊢
  constructor
  · rw [drop_append_of_le p q k (by omega)]
    exact h.1.trans (List.prefix_append _ _)
  · intro i hi hpre
    apply h.2 i hi
    rw [drop_append_of_le p q i (by omega)] at hpre
    have hlen : sep.length ≤ (p.drop i).length := by
      simp only [List.length_drop]; omega
    exact List.prefix_of_prefix_length_le hpre (List.prefix_append _ _) hlen

theorem indexByte?_eq_some_iff (s : List Byte) (c : Byte) (j : Nat) :
    indexByte? s c = some j ↔ s[j]? = some c ∧ ∀ i < j, s[i]? ≠ some c := by
  induction s generalizing j with
  | nil => simp [indexByte?]
  | cons x t ih =>
    unfold indexByte?
    by_cases h : x = c
    · simp only [h, if_true, Option.some.injEq]
      constructor
      · intro hj; subst hj; simp
      · intro hj
        by_contra hne
        exact hj.2 0 (by omega) (by simp)
    · simp only [h, if_false, Option.map_eq_some']
      constructor
      · rintro ⟨j, hj, rfl⟩
        rw [ih] at hj
        refine ⟨by simpa using hj.1, ?_⟩
        intro i hi
        cases i with
        | zero => simpa using h
        | succ i => simpa using hj.2 i (by omega)
      · intro hj
        cases j with
        | zero => exact absurd (by simpa using hj.1) h
        | succ j =>
          refine ⟨j, ?_, rfl⟩
          rw [ih]
          refine ⟨by simpa using hj.1, ?_⟩
          intro i hi
          simpa using hj.2 (i + 1) (by omega)

theorem indexByte?_eq_none_iff (s : List Byte) (c : Byte) :
    indexByte? s c = none ↔ c ∉ s := by
  induction s with
  | nil => simp [indexByte?]
  | cons x t ih =>
    unfold indexByte?
    by_cases h : x = c
    · simp [h]
    · simp only [h, if_false, Option.map_eq_none', ih, List.mem_cons, not_or]
      constructor
      · intro h0; exact ⟨fun e => h e.symm, h0⟩
      · intro h0; exact h0.2

theorem indexByte?_bound {s : List Byte} {c : Byte} {j : Nat} (h : indexByte? s c = some j) :
    j < s.length := by
  rw [indexByte?_eq_some_iff] at h
  by_contra hj
  have : s[j]? = none := List.getElem?_eq_none (by omega)
  rw [this] at h
  exact absurd h.1 (by simp)

theorem indexByte?_append {s : List Byte} {c : Byte} {j : Nat} (q : List Byte)
    (h : indexByte? s c = some j) : indexByte? (s ++ q) c = some j := by
  have hb := indexByte?_bound h
  rw [indexByte?_eq_some_iff] at h ⊢
  constructor
  · rw [List.getElem?_append_left hb]; exact h.1
  · intro i hi
    rw [List.getElem?_append_left (by omega)]
    exact h.2 i hi

/-! ## The closed form of splitYamlDoc -/

theorem goSlice_of_le (s : List Byte) (lo hi : Nat) (h1 : lo ≤ hi) (h2 : hi ≤ s.length) :
    goSlice s (lo : Int) (hi : Int) = some ((s.take hi).drop lo) := by
  unfold goSlice
  have : (0 : Int) ≤ lo ∧ (lo : Int) ≤ hi ∧ (hi : Int) ≤ (s.length : Int) := by omega
  simp [this]

theorem index?_nil_sep : index? [] yamlSeparator = none := by decide

theorem splitYamlDoc_eq (data : List Byte) (atEOF : Bool) :
    splitYamlDoc data atEOF
      = some ⟨((splitSpec data atEOF).1 : Int), (splitSpec data atEOF).2, none⟩ := by
  unfold splitYamlDoc splitSpec bytesIndex
  by_cases hA : atEOF = true ∧ data.length = 0
  · have hd : data = [] := List.length_eq_zero.mp hA.2
    subst hd
    simp [hA.1, index?_nil_sep]
  · rw [if_neg hA]
    cases hidx : index? data yamlSeparator with
    | none =>
      have hneg : ¬ ((-1 : Int) ≥ 0) := by omega
      simp only [hneg, if_false]
      by_cases hE : atEOF = true
      · have hne : data ≠ [] := by
          intro h0; apply hA; exact ⟨hE, by simp [h0]⟩
        simp [hE, hne]
      · simp [hE]
    | some k =>
      have hb := index?_bound hidx
      rw [yamlSeparator_length] at hb
      have hpos : ((k : Int) ≥ 0) := by omega
      simp only [hpos, if_true, yamlSeparator_length]
      have e1 : ((k : Int) + ((4 : Nat) : Int)) = ((k + 4 : Nat) : Int) := by push_cast; ring
      rw [e1, goSlice_of_le data (k + 4) data.length hb le_rfl]
      simp only [Option.some_bind, List.take_length, List.length_drop]
      by_cases hlen : data.length = k + 4
      · have h0 : data.length - (k + 4) = 0 := by omega
        simp only [h0, if_true, hlen]
        by_cases hE : atEOF = true
        · have e2 : (((k + 4 : Nat) : Int) - ((4 : Nat) : Int)) = ((k : Nat) : Int) := by
            push_cast; ring
          have e3 : (0 : Int) = ((0 : Nat) : Int) := rfl
          rw [if_pos hE, if_pos hE, e2, e3, goSlice_of_le data 0 k (by omega) (by omega)]
          simp
        · simp [hE]
      · have h0 : ¬ (data.length - (k + 4) = 0) := by omega
        simp only [h0, if_false, hlen, bytesIndexByte]
        cases hj : indexByte? (List.drop (k + 4) data) newline with
        | none =>
          have hneg : ¬ ((-1 : Int) ≥ 0) := by omega
          simp [hneg]
        | some j =>
          have hjpos : ((j : Int) ≥ 0) := by omega
          have e2 : (((k + 4 : Nat) : Int) - ((4 : Nat) : Int)) = ((k : Nat) : Int) := by
            push_cast; ring
          have e3 : (0 : Int) = ((0 : Nat) : Int) := rfl
          simp only [hjpos, if_true]
          rw [e2, e3, goSlice_of_le data 0 k (by omega) (by omega)]
          simp only [Option.some_bind, List.drop_zero]
          congr 2

/-! ## Facts about one call -/

theorem splitSpec_none_advance {data : List Byte} {e : Bool} {a : Nat}
    (h : splitSpec data e = (a, none)) : a = 0 := by
  unfold splitSpec at h
  split at h
  · split at h <;> simp_all
  · split at h
    · split at h <;> simp_all
    · split at h <;> simp_all

theorem splitSpec_token_bounds {data : List Byte} {e : Bool} {a : Nat} {t : List Byte}
    (h : splitSpec data e = (a, some t)) :
    1 ≤ a ∧ a ≤ data.length ∧ t.length ≤ a ∧ t <+: data := by
  unfold splitSpec at h
  split at h
  · split at h
    · rename_i hE
      simp only [Prod.mk.injEq, Option.some.injEq] at h
      obtain ⟨rfl, rfl⟩ := h
      have : data.length ≠ 0 := fun h0 => hE.2 (List.length_eq_zero.mp h0)
      exact ⟨by omega, le_rfl, le_rfl, List.prefix_refl _⟩
    · simp at h
  · rename_i k hidx
    have hb := index?_bound hidx
    rw [yamlSeparator_length] at hb
    split at h
    · split at h
      · simp only [Prod.mk.injEq, Option.some.injEq] at h
        obtain ⟨rfl, rfl⟩ := h
        refine ⟨by omega, le_rfl, ?_, List.take_prefix _ _⟩
        simp only [List.length_take]; omega
      · simp at h
    · split at h
      · rename_i j hj
        have hjb := indexByte?_bound hj
        simp only [List.length_drop] at hjb
        simp only [Prod.mk.injEq, Option.some.injEq] at h
        obtain ⟨rfl, rfl⟩ := h
        refine ⟨by omega, by omega, ?_, List.take_prefix _ _⟩
        simp only [List.length_take]; omega
      · simp at h

theorem splitSpec_stable {p : List Byte} {a : Nat} {t : List Byte} (q : List Byte) (e : Bool)
    (h : splitSpec p false = (a, some t)) : splitSpec (p ++ q) e = (a, some t) := by
  unfold splitSpec at h
  split at h
  · simp at h
  · rename_i k hidx
    have hb := index?_bound hidx
    rw [yamlSeparator_length] at hb
    split at h
    · simp at h
    · rename_i hlen
      split at h
      · rename_i j hj
        simp only [Prod.mk.injEq, Option.some.injEq] at h
        obtain ⟨rfl, rfl⟩ := h
        unfold splitSpec
        rw [index?_append q hidx]
        have hne : ¬ ((p ++ q).length = k + 4) := by
          simp only [List.length_append]; omega
        simp only [hne, if_false]
        rw [drop_append_of_le p q (k + 4) hb, indexByte?_append q hj]
        simp only [Prod.mk.injEq, Option.some.injEq, true_and]
        rw [List.take_append_of_le_length (by omega)]
      · simp at h

/-! ## Facts about complete runs -/

theorem drainEOF_succ (n : Nat) (buf : List Byte) :
    drainEOF (n + 1) buf
      = match (splitSpec buf true).2 with
        | none => some []
        | some tok =>
          (drainEOF n (buf.drop (splitSpec buf true).1)).map
            (fun es => ⟨((splitSpec buf true).1 : Int), tok⟩ :: es) := by
  simp only [drainEOF, splitYamlDoc_eq, Int.toNat_ofNat]

theorem feed_succ (n : Nat) (buf : List Byte) (chunks : List (List Byte)) :
    feed (n + 1) buf chunks
      = match (splitSpec buf false).2 with
        | some tok =>
          (feed n (buf.drop (splitSpec buf false).1) chunks).map
            (fun es => ⟨((splitSpec buf false).1 : Int), tok⟩ :: es)
        | none =>
          match chunks with
          | c :: cs => feed n (buf.drop (splitSpec buf false).1 ++ c) cs
          | [] => drainEOF n (buf.drop (splitSpec buf false).1) := by
  simp only [feed, splitYamlDoc_eq, Int.toNat_ofNat]

theorem drainEOF_fuel (buf : List Byte) (n : Nat) (hn : buf.length < n) :
    drainEOF n buf = drainEOF (buf.length + 1) buf := by
  generalize hl : buf.length = l at hn ⊢
  induction l using Nat.strong_induction_on generalizing buf n with
  | _ l ih =>
    subst hl
    obtain ⟨m, rfl⟩ : ∃ m, n = m + 1 := ⟨n - 1, by omega⟩
    rw [drainEOF_succ, drainEOF_succ]
    cases htok : (splitSpec buf true).2 with
    | none => rfl
    | some tok =>
      have hb := splitSpec_token_bounds (show splitSpec buf true = ((splitSpec buf true).1, some tok) by
        rw [← htok])
      have hlt : (buf.drop (splitSpec buf true).1).length < buf.length := by
        simp only [List.length_drop]; omega
      simp only
      rw [ih _ hlt _ m rfl (by omega), ih _ hlt _ buf.length rfl hlt]

theorem drainEOF_isSome (buf : List Byte) : ∃ es, drainEOF (buf.length + 1) buf = some es := by
  generalize hl : buf.length = l
  induction l using Nat.strong_induction_on generalizing buf with
  | _ l ih =>
    subst hl
    rw [drainEOF_succ]
    cases htok : (splitSpec buf true).2 with
    | none => exact ⟨[], rfl⟩
    | some tok =>
      have hb := splitSpec_token_bounds (show splitSpec buf true = ((splitSpec buf true).1, some tok) by
        rw [← htok])
      have hlt : (buf.drop (splitSpec buf true).1).length < buf.length := by
        simp only [List.length_drop]; omega
      obtain ⟨es, hes⟩ := ih _ hlt _ rfl
      simp only
      rw [drainEOF_fuel _ buf.length hlt, hes]
      exact ⟨_, rfl⟩

theorem feed_eq_drainEOF (fuel : Nat) (buf : List Byte) (chunks : List (List Byte))
    (hf : buf.length + chunks.flatten.length + chunks.length + 2 ≤ fuel) :
    feed fuel buf chunks
      = drainEOF ((buf ++ chunks.flatten).length + 1) (buf ++ chunks.flatten) := by
  induction fuel generalizing buf chunks with
  | zero => omega
  | succ n ih =>
    rw [feed_succ]
    cases htok : (splitSpec buf false).2 with
    | some tok =>
      have hsp : splitSpec buf false = ((splitSpec buf false).1, some tok) := by rw [← htok]
      have hb := splitSpec_token_bounds hsp
      have hst := splitSpec_stable chunks.flatten true hsp
      simp only
      conv_rhs => rw [drainEOF_succ, hst]
      simp only
      rw [ih _ _ (by simp only [List.length_drop]; omega), drop_append_of_le _ _ _ hb.2.1]
      rw [drainEOF_fuel (List.drop (splitSpec buf false).1 buf ++ chunks.flatten)
        (buf ++ chunks.flatten).length
        (by simp only [List.length_append, List.length_drop]; omega)]
    | none =>
      have hsp : splitSpec buf false = ((splitSpec buf false).1, none) := by rw [← htok]
      have h0 := splitSpec_none_advance hsp
      simp only [h0, List.drop_zero]
      cases chunks with
      | nil =>
        simp only [List.flatten_nil, List.append_nil]
        simp only [List.flatten_nil, List.length_nil, List.length_cons] at hf
        exact drainEOF_fuel buf n (by omega)
      | cons c cs =>
        simp only [List.flatten_cons, List.length_append, List.length_cons] at hf
        simp only [List.flatten_cons]
        rw [ih (buf ++ c) cs (by simp only [List.length_append]; omega), List.append_assoc]

theorem scanStream_eq (chunks : List (List Byte)) :
    scanStream chunks = drainEOF (chunks.flatten.length + 1) chunks.flatten := by
  unfold scanStream
  rw [feed_eq_drainEOF _ _ _ (by simp)]
  simp

theorem splitAll_eq (data : List Byte) : splitAll data = drainEOF (data.length + 1) data := by
  unfold splitAll
  rw [scanStream_eq]
  simp

theorem index?_eq_none_iff_absent (s sep : List Byte) :
    index? s sep = none ↔ ¬ sep <:+: s := by
  rw [index?_eq_none_iff]
  constructor
  · rintro h ⟨a, b, hab⟩
    apply h a.length
    rw [← hab, List.append_assoc, List.drop_left]
    exact List.prefix_append _ _
  · intro h i hpre
    exact h (hpre.isInfix.trans (List.drop_suffix i s).isInfix)

/-! ## Claims about one call of splitYamlDoc -/

/-- C3: when the first separator of data starts at offset k and m is the first offset of a
newline at or after k+4, splitYamlDoc returns the token data[0:k], the advance m+1 and a nil
error, for either value of atEOF. -/
theorem splitYamlDoc_separator_found (data : List Byte) (atEOF : Bool) (k m : Nat)
    (hsep : yamlSeparator <+: data.drop k)
    (hfirst : ∀ i < k, ¬ yamlSeparator <+: data.drop i)
    (hkm : k + 4 ≤ m)
    (hnl : data[m]? = some newline)
    (hmin : ∀ i, k + 4 ≤ i → i < m → data[i]? ≠ some newline) :
    splitYamlDoc data atEOF = some ⟨(m : Int) + 1, some (data.take k), none⟩ := by
  have hidx : index? data yamlSeparator = some k := (index?_eq_some_iff _ _ _).2 ⟨hsep, hfirst⟩
  have hmlt : m < data.length := by
    by_contra hge
    rw [List.getElem?_eq_none (by omega)] at hnl
    cases hnl
  have hj : indexByte? (data.drop (k + 4)) newline = some (m - (k + 4)) := by
    rw [indexByte?_eq_some_iff]
    constructor
    · rw [List.getElem?_drop]
      have : k + 4 + (m - (k + 4)) = m := by omega
      rw [this]; exact hnl
    · intro i hi
      rw [List.getElem?_drop]
      exact hmin (k + 4 + i) (by omega) (by omega)
  rw [splitYamlDoc_eq]
  unfold splitSpec
  have hne : ¬ (data.length = k + 4) := by omega
  simp only [hidx, hne, if_false, hj]
  have : k + 4 + (m - (k + 4)) + 1 = m + 1 := by omega
  rw [this]
  rfl

theorem splitYamlDoc_separator_found_witness :
    splitYamlDoc (bytes "a\n---x\nb") true = some ⟨(6 : Int) + 1, some ((bytes "a\n---x\nb").take 1), none⟩ :=
  splitYamlDoc_separator_found (bytes "a\n---x\nb") true 1 6 (by decide) (by decide) (by decide)
    (by decide) (by decide)

/-- C4: at end of stream a buffer whose separator is followed by bytes but no newline is
answered with advance 0 and no token, so true end-of-stream does not always force emission
of the remainder. -/
theorem splitYamlDoc_atEOF_unterminated_separator_line :
    bytes "a\n---b" ≠ [] ∧ splitYamlDoc (bytes "a\n---b") true = some ⟨0, none, none⟩ := by
  decide

/-! ## Claims about complete runs -/

/-- C1: on the six bytes a, newline, dash, dash, dash, b the complete run emits no token and
consumes nothing: the returned advances sum to 0, not to the length 6, and every byte of the
input is dropped. -/
theorem splitAll_drops_unterminated_separator_line :
    splitAll (bytes "a\n---b") = some [] ∧
      ((splitAll (bytes "a\n---b")).getD []).foldl (fun n e => n + e.advance) 0
        ≠ ((bytes "a\n---b").length : Int) := by
  decide

/-- C2 (chunk-invariance): a stream fed in arbitrary chunks runs to completion and yields the
same token sequence (with the same advances) as the same stream fed as one chunk; and a
token emitted with atEOF = false on a prefix p of d is returned unchanged, with the same
advance, by splitYamlDoc on d for both values of atEOF. -/
theorem chunk_invariance (chunks : List (List Byte)) (p d : List Byte) (r : SplitResult) :
    (∃ es, scanStream chunks = some es ∧ scanStream [chunks.flatten] = some es) ∧
    tokensOf (scanStream chunks) = tokensOf (scanStream [chunks.flatten]) ∧
    (p <+: d → splitYamlDoc p false = some r → r.token ≠ none →
      splitYamlDoc d false = some r ∧ splitYamlDoc d true = some r) := by
  have hone : scanStream [chunks.flatten] = scanStream chunks := by
    rw [scanStream_eq, scanStream_eq]
    simp
  refine ⟨?_, by rw [hone], ?_⟩
  · obtain ⟨es, hes⟩ := drainEOF_isSome chunks.flatten
    refine ⟨es, ?_, ?_⟩
    · rw [scanStream_eq, hes]
    · rw [hone, scanStream_eq, hes]
  · rintro ⟨q, rfl⟩ hp htok
    rw [splitYamlDoc_eq] at hp
    simp only [Option.some.injEq] at hp
    subst hp
    simp only [ne_eq] at htok
    obtain ⟨t, ht⟩ := Option.ne_none_iff_exists'.mp htok
    have hsp : splitSpec p false = ((splitSpec p false).1, some t) := by rw [← ht]
    rw [splitYamlDoc_eq, splitYamlDoc_eq, splitSpec_stable q false hsp,
      splitSpec_stable q true hsp, ht]
    exact ⟨rfl, rfl⟩

theorem chunk_invariance_witness :
    tokensOf (scanStream [bytes "a\n-", bytes "--\nb"])
      = tokensOf (scanStream [[bytes "a\n-", bytes "--\nb"].flatten]) ∧
    splitYamlDoc (bytes "a\n---\nb") false = some ⟨6, some (bytes "a"), none⟩ ∧
    splitYamlDoc (bytes "a\n---\nb") true = some ⟨6, some (bytes "a"), none⟩ :=
  ⟨(chunk_invariance [bytes "a\n-", bytes "--\nb"] (bytes "a\n---\n") (bytes "a\n---\nb")
      ⟨6, some (bytes "a"), none⟩).2.1,
   (chunk_invariance [bytes "a\n-", bytes "--\nb"] (bytes "a\n---\n") (bytes "a\n---\nb")
      ⟨6, some (bytes "a"), none⟩).2.2 (by decide) (by decide) (by decide)⟩

/-- C10: a stream without any separator runs to completion with exactly one token, the whole
input, when it is non-empty, and with no token when it is empty; at end of stream
splitYamlDoc returns (len(data), data) for such non-empty data and (0, nil) for empty data. -/
theorem no_separator_single_token (data : List Byte) (h : ¬ yamlSeparator <:+: data) :
    (data ≠ [] →
      splitAll data = some [⟨data.length, data⟩] ∧
      splitYamlDoc data true = some ⟨data.length, some data, none⟩) ∧
    (data = [] →
      splitAll data = some [] ∧ splitYamlDoc data true = some ⟨0, none, none⟩) := by
  have hidx : index? data yamlSeparator = none := (index?_eq_none_iff_absent _ _).2 h
  constructor
  · intro hne
    have hsp : splitSpec data true = (data.length, some data) := by
      unfold splitSpec; simp [hidx, hne]
    have hnil : splitSpec ([] : List Byte) true = (0, none) := by
      unfold splitSpec; simp [index?_nil_sep]
    refine ⟨?_, by rw [splitYamlDoc_eq, hsp]⟩
    rw [splitAll_eq, drainEOF_succ, hsp]
    simp only [List.drop_length]
    obtain ⟨m, hm⟩ : ∃ m, data.length = m + 1 :=
      ⟨data.length - 1, by have := List.length_pos.mpr hne; omega⟩
    rw [hm, drainEOF_succ, hnil]
    rfl
  · intro he
    subst he
    exact ⟨by decide, by decide⟩

theorem no_separator_single_token_witness :
    splitAll (bytes "kind: x") = some [⟨(bytes "kind: x").length, bytes "kind: x"⟩] ∧
      splitYamlDoc (bytes "kind: x") true
        = some ⟨(bytes "kind: x").length, some (bytes "kind: x"), none⟩ :=
  (no_separator_single_token (bytes "kind: x") (by decide)).1 (by decide)

/-! ## Counting separators -/

theorem not_sep_prefix_nil : ¬ yamlSeparator <+: ([] : List Byte) := by decide

theorem countSep_step (l : List Byte) :
    countSep l = (if yamlSeparator <+: l then 1 else 0) + countSep (l.drop 1) := by
  cases l with
  | nil =>
    have : yamlSeparator ≠ [] := by decide
    simp [countSep, this]
  | cons c t => simp [countSep]

theorem countSep_drop_le (s : List Byte) (n : Nat) : countSep (s.drop n) ≤ countSep s := by
  induction n generalizing s with
  | zero => simp
  | succ n ih =>
    have h1 := ih (s.drop 1)
    rw [List.drop_drop] at h1
    have h2 := countSep_step s
    have e : 1 + n = n + 1 := by omega
    rw [e] at h1
    omega

theorem countSep_drop_mono (s : List Byte) {a b : Nat} (h : a ≤ b) :
    countSep (s.drop b) ≤ countSep (s.drop a) := by
  have := countSep_drop_le (s.drop a) (b - a)
  rw [List.drop_drop] at this
  have e : a + (b - a) = b := by omega
  rwa [e] at this

theorem countSep_skip (s : List Byte) (a b : Nat) (hab : a ≤ b)
    (h : ∀ i, a ≤ i → i < b → ¬ yamlSeparator <+: s.drop i) :
    countSep (s.drop a) = countSep (s.drop b) := by
  induction b with
  | zero =>
    have : a = 0 := by omega
    subst this; rfl
  | succ b ih =>
    by_cases hb : a = b + 1
    · subst hb; rfl
    · rw [ih (by omega) (fun i h1 h2 => h i h1 (by omega))]
      have h1 := countSep_step (s.drop b)
      rw [List.drop_drop] at h1
      have h2 := h b (by omega) (by omega)
      simp only [h2, if_false, zero_add] at h1
      rw [h1, Nat.add_comm]

theorem countSep_at (s : List Byte) (p : Nat) (h : yamlSeparator <+: s.drop p) :
    countSep (s.drop p) = 1 + countSep (s.drop (p + 1)) := by
  have h1 := countSep_step (s.drop p)
  rw [List.drop_drop] at h1
  simp only [h, if_true] at h1
  rw [h1, Nat.add_comm p 1]

theorem countSep_of_index?_none (s : List Byte) (h : index? s yamlSeparator = none) :
    countSep s = 0 := by
  rw [index?_eq_none_iff] at h
  have key : ∀ n, countSep s = countSep (s.drop n) := by
    intro n
    have := countSep_skip s 0 n (by omega) (fun i _ _ => h i)
    simpa using this
  have := key s.length
  simpa [countSep] using this

theorem countSep_of_index?_some (s : List Byte) (k : Nat) (h : index? s yamlSeparator = some k) :
    countSep s = 1 + countSep (s.drop (k + 1)) := by
  rw [index?_eq_some_iff] at h
  have h1 := countSep_skip s 0 k (by omega) (fun i _ hi => h.2 i hi)
  rw [List.drop_zero] at h1
  rw [h1, countSep_at s k h.1]

theorem sep_prefix_head {l : List Byte} (h : yamlSeparator <+: l) : l[0]? = some newline := by
  obtain ⟨t, rfl⟩ := h
  rfl

theorem sep_prefix_dashes {l : List Byte} (h : yamlSeparator <+: l) :
    l[1]? = some 45 ∧ l[2]? = some 45 ∧ l[3]? = some 45 := by
  obtain ⟨t, rfl⟩ := h
  rw [yamlSeparator_eq]
  simp

theorem not_sep_prefix_of_ne_newline (s : List Byte) (i : Nat) (h : s[i]? ≠ some newline) :
    ¬ yamlSeparator <+: s.drop i := by
  intro hp
  apply h
  have := sep_prefix_head hp
  rwa [List.getElem?_drop, Nat.add_zero] at this

/-! ## The shape of a complete run -/

theorem splitSpec_nil (e : Bool) : splitSpec [] e = (0, none) := by
  unfold splitSpec
  simp [index?_nil_sep]

theorem splitAll_nil : splitAll [] = some [] := by decide

theorem splitAll_of_spec_none (data : List Byte) (h : (splitSpec data true).2 = none) :
    splitAll data = some [] := by
  rw [splitAll_eq, drainEOF_succ, h]

theorem splitAll_of_spec_some (data : List Byte) (a : Nat) (t : List Byte)
    (h : splitSpec data true = (a, some t)) :
    splitAll data = (splitAll (data.drop a)).map (fun es => ⟨(a : Int), t⟩ :: es) := by
  have hb := splitSpec_token_bounds h
  rw [splitAll_eq, splitAll_eq, drainEOF_succ, h]
  simp only
  rw [drainEOF_fuel (data.drop a) data.length (by simp only [List.length_drop]; omega)]

theorem splitAll_no_sep (data : List Byte) (hne : data ≠ [])
    (h : index? data yamlSeparator = none) : splitAll data = some [⟨data.length, data⟩] := by
  have hsp : splitSpec data true = (data.length, some data) := by
    unfold splitSpec; simp [h, hne]
  rw [splitAll_of_spec_some data _ _ hsp, List.drop_length, splitAll_nil]
  rfl

theorem splitAll_sep_at_end (data : List Byte) (k : Nat)
    (h : index? data yamlSeparator = some k) (hlen : data.length = k + 4) :
    splitAll data = some [⟨data.length, data.take k⟩] := by
  have hsp : splitSpec data true = (data.length, some (data.take k)) := by
    unfold splitSpec; simp [h, hlen]
  rw [splitAll_of_spec_some data _ _ hsp, List.drop_length, splitAll_nil]
  rfl

theorem splitAll_unterminated (data : List Byte) (k : Nat)
    (h : index? data yamlSeparator = some k) (hlen : data.length ≠ k + 4)
    (hj : indexByte? (data.drop (k + 4)) newline = none) : splitAll data = some [] := by
  apply splitAll_of_spec_none
  unfold splitSpec; simp [h, hlen, hj]

theorem splitAll_sep_line (data : List Byte) (k j : Nat)
    (h : index? data yamlSeparator = some k) (hlen : data.length ≠ k + 4)
    (hj : indexByte? (data.drop (k + 4)) newline = some j) :
    splitAll data
      = (splitAll (data.drop (k + 4 + j + 1))).map
          (fun es => ⟨((k + 4 + j + 1 : Nat) : Int), data.take k⟩ :: es) := by
  apply splitAll_of_spec_some
  unfold splitSpec; simp [h, hlen, hj]

theorem splitAll_isSome (data : List Byte) : ∃ es, splitAll data = some es := by
  rw [splitAll_eq]
  exact drainEOF_isSome data

theorem yamlSeparator_cons : yamlSeparator = newline :: bytes "---" := by decide

theorem indexByte?_of_first (data : List Byte) (a m : Nat) (ham : a ≤ m)
    (hnl : data[m]? = some newline)
    (hmin : ∀ i, a ≤ i → i < m → data[i]? ≠ some newline) :
    indexByte? (data.drop a) newline = some (m - a) := by
  rw [indexByte?_eq_some_iff]
  constructor
  · rw [List.getElem?_drop]
    have : a + (m - a) = m := by omega
    rw [this]; exact hnl
  · intro i hi
    rw [List.getElem?_drop]
    exact hmin (a + i) (by omega) (by omega)

/-- C9, amended: a stream with N separator occurrences runs to completion with at most N+1
tokens, and with fewer than N+1 when it ends exactly at a trailing separator; it yields
exactly N+1 tokens when it is non-empty and every separator occurrence is followed by a
newline that ends its line, with at least one byte after that newline and no three dashes
directly after it. -/
theorem token_count (data : List Byte) :
    ∃ es, splitAll data = some es ∧
      es.length ≤ countSep data + 1 ∧
      (yamlSeparator <:+ data → es.length < countSep data + 1) ∧
      (data ≠ [] →
        (∀ k, yamlSeparator <+: data.drop k →
          ∃ m, k + 4 ≤ m ∧ data[m]? = some newline ∧
            (∀ i, k + 4 ≤ i → i < m → data[i]? ≠ some newline) ∧
            m + 1 < data.length ∧ ¬ bytes "---" <+: data.drop (m + 1)) →
        es.length = countSep data + 1) := by
  generalize hl : data.length = l
  induction l using Nat.strong_induction_on generalizing data with
  | _ l ih =>
    subst hl
    by_cases hnil : data = []
    · subst hnil
      refine ⟨[], splitAll_nil, by simp, ?_, ?_⟩
      · intro h
        exact absurd (List.suffix_nil.mp h) (by decide)
      · intro h; exact absurd rfl h
    cases hidx : index? data yamlSeparator with
    | none =>
      refine ⟨_, splitAll_no_sep data hnil hidx, by simp, ?_, ?_⟩
      · intro hsuf
        exact absurd hsuf.isInfix ((index?_eq_none_iff_absent _ _).1 hidx)
      · intro _ _
        rw [countSep_of_index?_none _ hidx]; rfl
    | some k =>
      have hb := index?_bound hidx
      rw [yamlSeparator_length] at hb
      have hcount := countSep_of_index?_some data k hidx
      have hk := (index?_eq_some_iff _ _ _).1 hidx
      by_cases hlen : data.length = k + 4
      · refine ⟨_, splitAll_sep_at_end data k hidx hlen, by simp, ?_, ?_⟩
        · intro _
          simp only [List.length_singleton]; omega
        · intro _ hreg
          obtain ⟨m, hm1, _, _, hm4, _⟩ := hreg k hk.1
          omega
      · cases hj : indexByte? (data.drop (k + 4)) newline with
        | none =>
          refine ⟨[], splitAll_unterminated data k hidx hlen hj, by simp, ?_, ?_⟩
          · intro _; simp
          · intro _ hreg
            obtain ⟨m, hm1, hm2, hm3, _, _⟩ := hreg k hk.1
            rw [indexByte?_of_first data (k + 4) m hm1 hm2 hm3] at hj
            cases hj
        | some j =>
          have hjb := indexByte?_bound hj
          simp only [List.length_drop] at hjb
          have hrun := splitAll_sep_line data k j hidx hlen hj
          have hrlen : (data.drop (k + 4 + j + 1)).length < data.length := by
            simp only [List.length_drop]; omega
          obtain ⟨es, hes, h1, h2, h3⟩ := ih _ hrlen (data.drop (k + 4 + j + 1)) rfl
          have hmono := countSep_drop_mono data (show k + 1 ≤ k + 4 + j + 1 by omega)
          refine ⟨_ :: es, by rw [hrun, hes]; rfl, ?_, ?_, ?_⟩
          · simp only [List.length_cons]; omega
          · intro hsuf
            have hp : yamlSeparator <+: data.drop (data.length - 4) := by
              have := List.suffix_iff_eq_drop.mp hsuf
              rw [yamlSeparator_length] at this
              rw [← this]
            by_cases hpm : k + 4 + j + 1 ≤ data.length - 4
            · have hs : yamlSeparator <:+ data.drop (k + 4 + j + 1) := by
                have e := List.suffix_iff_eq_drop.mp hsuf
                rw [yamlSeparator_length] at e
                have e2 : data.drop (data.length - 4)
                    = (data.drop (k + 4 + j + 1)).drop (data.length - 4 - (k + 4 + j + 1)) := by
                  rw [List.drop_drop]
                  congr 1; omega
                rw [e, e2]
                exact List.drop_suffix _ _
              have := h2 hs
              simp only [List.length_cons]; omega
            · have c1 := countSep_drop_mono data (show k + 1 ≤ data.length - 4 by omega)
              have c2 := countSep_at data _ hp
              have c3 := countSep_drop_mono data
                (show data.length - 4 + 1 ≤ k + 4 + j + 1 by omega)
              simp only [List.length_cons]; omega
          · intro _ hreg
            obtain ⟨m, hm1, hm2, hm3, hm4, hm5⟩ := hreg k hk.1
            have hjm : j = m - (k + 4) := by
              have := indexByte?_of_first data (k + 4) m hm1 hm2 hm3
              rw [hj] at this
              exact Option.some.inj this
            have hm : k + 4 + j + 1 = m + 1 := by omega
            rw [hm] at hes h3 hrlen
            have hrne : data.drop (m + 1) ≠ [] := by
              intro h0
              have := congrArg List.length h0
              simp only [List.length_drop, List.length_nil] at this
              omega
            have hreg2 : ∀ k2, yamlSeparator <+: (data.drop (m + 1)).drop k2 →
                ∃ m2, k2 + 4 ≤ m2 ∧ (data.drop (m + 1))[m2]? = some newline ∧
                  (∀ i, k2 + 4 ≤ i → i < m2 → (data.drop (m + 1))[i]? ≠ some newline) ∧
                  m2 + 1 < (data.drop (m + 1)).length ∧
                  ¬ bytes "---" <+: (data.drop (m + 1)).drop (m2 + 1) := by
              intro k2 hk2
              rw [List.drop_drop] at hk2
              obtain ⟨n, hn1, hn2, hn3, hn4, hn5⟩ := hreg (m + 1 + k2) hk2
              refine ⟨n - (m + 1), by omega, ?_, ?_, ?_, ?_⟩
              · rw [List.getElem?_drop]
                have : m + 1 + (n - (m + 1)) = n := by omega
                rw [this]; exact hn2
              · intro i hi1 hi2
                rw [List.getElem?_drop]
                exact hn3 (m + 1 + i) (by omega) (by omega)
              · simp only [List.length_drop]; omega
              · rw [List.drop_drop]
                have : m + 1 + (n - (m + 1) + 1) = n + 1 := by omega
                rw [this]; exact hn5
            have hex := h3 hrne hreg2
            have hskip : countSep (data.drop (k + 1)) = countSep (data.drop (m + 1)) := by
              apply countSep_skip data (k + 1) (m + 1) (by omega)
              intro i hi1 hi2
              have hd := sep_prefix_dashes hk.1
              simp only [List.getElem?_drop] at hd
              by_cases hi3 : i < k + 4
              · apply not_sep_prefix_of_ne_newline
                have hi4 : i = k + 1 ∨ i = k + 2 ∨ i = k + 3 := by omega
                rcases hi4 with rfl | rfl | rfl
                · rw [hd.1]; decide
                · rw [hd.2.1]; decide
                · rw [hd.2.2]; decide
              · by_cases hi5 : i < m
                · exact not_sep_prefix_of_ne_newline data i (hm3 i (by omega) hi5)
                · have him : i = m := by omega
                  subst him
                  intro hpre
                  apply hm5
                  obtain ⟨t, ht⟩ := hpre
                  rw [yamlSeparator_cons, List.cons_append] at ht
                  have e := congrArg (List.drop 1) ht
                  rw [List.drop_drop] at e
                  simp only [List.drop_succ_cons, List.drop_zero] at e
                  rw [← e]
                  exact List.prefix_append _ _
            simp only [List.length_cons]; omega

theorem token_count_witness :
    ∃ es, splitAll (bytes "a\n---\nb") = some es ∧
      es.length = countSep (bytes "a\n---\nb") + 1 := by
  obtain ⟨es, h0, _, _, h3⟩ := token_count (bytes "a\n---\nb")
  refine ⟨es, h0, h3 (by decide) ?_⟩
  intro k hk
  have hk4 : k + 4 ≤ 7 := by
    have := hk.length_le
    simp only [List.length_drop, yamlSeparator_length] at this
    have h7 : (bytes "a\n---\nb").length = 7 := by decide
    omega
  have hk1 : k = 1 := by
    have h03 : k = 0 ∨ k = 1 ∨ k = 2 ∨ k = 3 := by omega
    rcases h03 with rfl | rfl | rfl | rfl
    · exact absurd hk (by decide)
    · rfl
    · exact absurd hk (by decide)
    · exact absurd hk (by decide)
  subst hk1
  refine ⟨5, by decide, by decide, ?_, by decide, by decide⟩
  intro i h1 h2
  omega

/-- C9, counterexample: the six bytes a, newline, dash, dash, dash, newline hold one separator
and do not end at a separator, yet the complete run yields one token, not two. -/
theorem token_count_counterexample :
    countSep (bytes "a\n---\n") = 1 ∧ ¬ yamlSeparator <:+ bytes "a\n---\n" ∧
      splitAll (bytes "a\n---\n") = some [⟨6, bytes "a"⟩] ∧
      ([⟨6, bytes "a"⟩] : List Emit).length ≠ countSep (bytes "a\n---\n") + 1 := by
  decide

/-! ## The bytes consumed with a token -/

theorem indexByte?_take {s : List Byte} {c : Byte} {j : Nat} (h : indexByte? s c = some j) :
    c ∉ s.take j ∧ s.take (j + 1) = s.take j ++ [c] := by
  have hb := indexByte?_bound h
  rw [indexByte?_eq_some_iff] at h
  constructor
  · intro hmem
    obtain ⟨i, hi, hget⟩ := List.getElem_of_mem hmem
    simp only [List.length_take] at hi
    have h2 := h.2 i (by omega)
    apply h2
    rw [List.getElem?_eq_getElem (by omega)]
    rw [List.getElem_take] at hget
    rw [hget]
  · rw [List.take_succ, h.1]
    rfl

theorem splitSpec_token_first {data : List Byte} {e : Bool} {a : Nat} {t : List Byte}
    (h : splitSpec data e = (a, some t)) :
    ∀ i < t.length, ¬ yamlSeparator <+: data.drop i := by
  unfold splitSpec at h
  split at h
  · rename_i hidx
    intro i _
    exact (index?_eq_none_iff _ _).1 hidx i
  · rename_i k hidx
    have hk := (index?_eq_some_iff _ _ _).1 hidx
    have key : t = data.take k := by
      split at h
      · split at h
        · simp only [Prod.mk.injEq, Option.some.injEq] at h
          exact h.2.symm
        · simp at h
      · split at h
        · simp only [Prod.mk.injEq, Option.some.injEq] at h
          exact h.2.symm
        · simp at h
    intro i hi
    rw [key, List.length_take] at hi
    exact hk.2 i (by omega)

/-- C8, amended: when splitYamlDoc emits a token because a separator was found, the token is
the prefix of data before the first separator (no separator starts before its end and the
bytes after it start with the separator), and the bytes consumed after it are a newline,
three dashes, then any run of bytes other than newline, and a newline; or, at end of stream
only, exactly a newline and three dashes that end the buffer. -/
theorem separator_line_consumed (data : List Byte) (atEOF : Bool) (r : SplitResult)
    (t : List Byte) (hcall : splitYamlDoc data atEOF = some r) (htok : r.token = some t)
    (hsep : yamlSeparator <:+: data) :
    t <+: data ∧ (∀ i < t.length, ¬ yamlSeparator <+: data.drop i) ∧
    ((∃ line, newline ∉ line ∧
        (data.take r.advance.toNat).drop t.length = yamlSeparator ++ line ++ [newline]) ∨
      (atEOF = true ∧ r.advance = (data.length : Int) ∧
        (data.take r.advance.toNat).drop t.length = yamlSeparator)) := by
  rw [splitYamlDoc_eq] at hcall
  simp only [Option.some.injEq] at hcall
  subst hcall
  simp only at htok
  simp only [Int.toNat_ofNat]
  have hsp : splitSpec data atEOF = ((splitSpec data atEOF).1, some t) := by rw [← htok]
  refine ⟨(splitSpec_token_bounds hsp).2.2.2, splitSpec_token_first hsp, ?_⟩
  cases hidx : index? data yamlSeparator with
  | none => exact absurd hsep ((index?_eq_none_iff_absent _ _).1 hidx)
  | some k =>
    have hb := index?_bound hidx
    rw [yamlSeparator_length] at hb
    have hk := (index?_eq_some_iff _ _ _).1 hidx
    have hdk : data.drop k = yamlSeparator ++ data.drop (k + 4) := by
      obtain ⟨u, hu⟩ := hk.1
      have := congrArg (List.drop 4) hu
      rw [List.drop_drop] at this
      rw [← hu, ← this]
      congr 1
    by_cases hlen : data.length = k + 4
    · have hs : splitSpec data atEOF
          = if atEOF = true then (data.length, some (data.take k)) else (0, none) := by
        unfold splitSpec; simp [hidx, hlen]
      by_cases hE : atEOF = true
      · rw [if_pos hE] at hs
        rw [hs] at htok
        simp only [Option.some.injEq] at htok
        subst htok
        right
        rw [hs]
        refine ⟨hE, rfl, ?_⟩
        simp only [List.take_length, List.length_take]
        have : min k data.length = k := by omega
        rw [this, hdk, List.drop_eq_nil_of_le (by omega), List.append_nil]
      · rw [if_neg hE] at hs
        rw [hs] at htok
        cases htok
    · cases hj : indexByte? (data.drop (k + 4)) newline with
      | none =>
        have hs : splitSpec data atEOF = (0, none) := by
          unfold splitSpec; simp [hidx, hlen, hj]
        rw [hs] at htok
        cases htok
      | some j =>
        have hs : splitSpec data atEOF = (k + 4 + j + 1, some (data.take k)) := by
          unfold splitSpec; simp [hidx, hlen, hj]
        rw [hs] at htok
        simp only [Option.some.injEq] at htok
        subst htok
        left
        rw [hs]
        obtain ⟨hnot, htk⟩ := indexByte?_take hj
        refine ⟨(data.drop (k + 4)).take j, hnot, ?_⟩
        simp only [List.length_take]
        have hmin : min k data.length = k := by omega
        rw [hmin, List.drop_take]
        have e1 : k + 4 + j + 1 - k = 4 + (j + 1) := by omega
        rw [e1, hdk]
        have h4 : yamlSeparator.length = 4 := yamlSeparator_length
        rw [List.take_append_eq_append_take, h4]
        have e2 : 4 + (j + 1) - 4 = j + 1 := by omega
        rw [e2, htk, List.take_of_length_le (by omega), List.append_assoc]

theorem separator_line_consumed_witness :
    bytes "a" <+: bytes "a\n---x\nb" ∧
    (∀ i < (bytes "a").length, ¬ yamlSeparator <+: (bytes "a\n---x\nb").drop i) ∧
    ((∃ line, newline ∉ line ∧
        ((bytes "a\n---x\nb").take (7 : Int).toNat).drop (bytes "a").length
          = yamlSeparator ++ line ++ [newline]) ∨
      (false = true ∧ (7 : Int) = ((bytes "a\n---x\nb").length : Int) ∧
        ((bytes "a\n---x\nb").take (7 : Int).toNat).drop (bytes "a").length = yamlSeparator)) :=
  separator_line_consumed (bytes "a\n---x\nb") false ⟨7, some (bytes "a"), none⟩ (bytes "a")
    (by decide) (by decide) (by decide)

/-- C8, counterexample: on a, newline, dash, dash, dash, x, newline, b the token is the byte a
and the advance is 7, so the six bytes consumed after the token include the x: they are
neither a newline, three dashes and a newline, nor a newline and three dashes. -/
theorem separator_line_not_exact :
    splitYamlDoc (bytes "a\n---x\nb") false = some ⟨7, some (bytes "a"), none⟩ ∧
      yamlSeparator <:+: bytes "a\n---x\nb" ∧
      ((bytes "a\n---x\nb").take 7).drop 1 = bytes "\n---x\n" ∧
      bytes "\n---x\n" ≠ yamlSeparator ++ [newline] ∧
      bytes "\n---x\n" ≠ yamlSeparator := by
  decide

/-! ## One iteration of Scan -/

theorem splitSpec_advance_le (data : List Byte) (e : Bool) :
    (splitSpec data e).1 ≤ data.length := by
  cases htok : (splitSpec data e).2 with
  | none =>
    have := splitSpec_none_advance (show splitSpec data e = ((splitSpec data e).1, none) by
      rw [← htok])
    omega
  | some t =>
    exact (splitSpec_token_bounds (show splitSpec data e = ((splitSpec data e).1, some t) by
      rw [← htok])).2.1

theorem trySplit_token (s : Scanner) (a : Nat) (t : List Byte)
    (hsplit : s.split = splitYamlDoc)
    (h : splitSpec s.data (decide (s.err ≠ none)) = (a, some t)) :
    s.trySplit = Flow.ret true
      { s with start := s.start + a, data := s.data.drop a, token := some t, empties := 0 } := by
  have hb := splitSpec_token_bounds h
  have hcond : s.data.length > 0 ∨ s.err ≠ none := by
    by_contra hc
    simp only [not_or, not_lt, Nat.le_zero, ne_eq, not_not] at hc
    have hd : s.data = [] := List.length_eq_zero.mp hc.1
    rw [hd] at hb
    simp only [List.length_nil] at hb
    omega
  unfold Scanner.trySplit
  rw [if_pos hcond, hsplit, splitYamlDoc_eq, h]
  have h1 : ¬ ((a : Int) < 0) := by omega
  have h2 : ¬ ((a : Int) > (s.data.length : Int)) := by omega
  have h3 : (a : Int) > 0 := by omega
  simp [h1, h2, h3]

theorem trySplit_none (s : Scanner) (hsplit : s.split = splitYamlDoc)
    (h : (splitSpec s.data (decide (s.err ≠ none))).2 = none) :
    ∃ tk, s.trySplit = Flow.next { s with token := tk } := by
  have h0 := splitSpec_none_advance
    (show splitSpec s.data (decide (s.err ≠ none))
        = ((splitSpec s.data (decide (s.err ≠ none))).1, none) by rw [← h])
  by_cases hcond : s.data.length > 0 ∨ s.err ≠ none
  · refine ⟨none, ?_⟩
    unfold Scanner.trySplit
    rw [if_pos hcond, hsplit, splitYamlDoc_eq]
    rcases hsp : splitSpec s.data (decide (s.err ≠ none)) with ⟨a, tok⟩
    rw [hsp] at h h0
    simp only at h h0
    subst h h0
    simp
  · refine ⟨s.token, ?_⟩
    unfold Scanner.trySplit
    rw [if_neg hcond]

theorem setErr_of_none (s : Scanner) (e : ScanErr) (h : s.err = none) :
    s.setErr e = { s with err := some e } := by
  unfold Scanner.setErr
  simp [h]

theorem fill_eof (k : Nat) (s : Scanner) (herr : s.err = none) (hr : s.r = []) :
    s.fill k = { s with err := some ScanErr.EOF } := by
  unfold Scanner.fill readerRead
  simp only [hr, List.length_nil, if_true, Nat.not_lt_zero, if_false, List.append_nil]
  unfold Scanner.setErr
  simp [herr]

theorem fill_read (k : Nat) (s : Scanner) (hr : s.r ≠ [])
    (hroom : s.start + s.data.length < s.bufLen) :
    s.fill k = { s with r := s.r.drop (s.bufLen - (s.start + s.data.length)),
                        data := s.data ++ s.r.take (s.bufLen - (s.start + s.data.length)),
                        empties := 0 } := by
  have hlen : s.r.length ≠ 0 := fun h => hr (List.length_eq_zero.mp h)
  unfold Scanner.fill readerRead
  simp only [hlen, if_false, List.length_take]
  have h1 : ¬ (s.bufLen - (s.start + s.data.length)
      < min (s.bufLen - (s.start + s.data.length)) s.r.length) := by omega
  have h2 : min (s.bufLen - (s.start + s.data.length)) s.r.length > 0 := by omega
  simp only [h1, if_false, h2, if_true]

theorem grow_of_err (s : Scanner) (herr : s.err ≠ none) :
    s.grow = Flow.ret false { s with start := 0, data := [] } := by
  unfold Scanner.grow
  rw [if_pos herr]

theorem grow_spec (s : Scanner) (herr : s.err = none) (hinv : s.Inv) :
    (∃ s1, s.grow = Flow.ret false s1 ∧ s1.Inv ∧ s1.err = some ScanErr.ErrTooLong ∧
        s.maxTokenSize ≤ s.data.length ∧ s1.maxTokenSize = s.maxTokenSize) ∨
    (∃ s1, s.grow = Flow.next s1 ∧ s1.Inv ∧ s1.err = none ∧ s1.r = s.r ∧ s1.data = s.data ∧
        s1.maxTokenSize = s.maxTokenSize ∧ s1.start + s1.data.length < s1.bufLen) := by
  obtain ⟨h1, h2, h3, h4, h5⟩ := hinv
  unfold Scanner.grow
  have hne : ¬ (s.err ≠ none) := by simp [herr]
  rw [if_neg hne]
  by_cases hshift : s.start > 0 ∧ (s.start + s.data.length = s.bufLen ∨ s.start > s.bufLen / 2)
  · simp only [hshift, and_self, if_true, zero_add]
    by_cases hfull : s.data.length = s.bufLen
    · omega
    · simp only [hfull, if_false]
      right
      exact ⟨_, rfl, ⟨h1, h2, by simp only [zero_add]; omega, h4, h5⟩, herr, rfl, rfl, rfl,
        by simp only [zero_add]; omega⟩
  · rw [if_neg hshift]
    by_cases hfull : s.start + s.data.length = s.bufLen
    · have hs0 : s.start = 0 := by
        by_contra hpos
        exact hshift ⟨by omega, Or.inl hfull⟩
      simp only [hfull, if_true]
      by_cases hbig : s.bufLen ≥ s.maxTokenSize ∨ s.bufLen > maxInt / 2
      · simp only [hbig, if_true]
        left
        refine ⟨_, rfl, ?_, ?_, by omega, ?_⟩
        · rw [setErr_of_none _ _ herr]
          exact ⟨h1, h2, h3, h4, h5⟩
        · rw [setErr_of_none _ _ herr]
        · rw [setErr_of_none _ _ herr]
      · simp only [hbig, if_false]
        right
        have hlt : s.bufLen < s.maxTokenSize := by omega
        refine ⟨_, rfl, ⟨h1, h2, ?_, ?_, h5⟩, herr, rfl, rfl, rfl, ?_⟩
        · simp only [zero_add]
          split_ifs <;> simp only [startBufSize] at * <;> omega
        · simp only
          split_ifs <;> simp only [startBufSize] at * <;> omega
        · simp only [zero_add]
          split_ifs <;> simp only [startBufSize] at * <;> omega
    · simp only [hfull, if_false]
      right
      exact ⟨_, rfl, ⟨h1, h2, h3, h4, h5⟩, herr, rfl, rfl, rfl, by omega⟩

theorem iter_spec (s : Scanner) (hinv : s.Inv) (hready : s.Ready) :
    (∃ a t s1, splitSpec s.data (decide (s.err ≠ none)) = (a, some t) ∧
        s.iter = Flow.ret true s1 ∧ s1.token = some t ∧ s1.data = s.data.drop a ∧
        s1.r = s.r ∧ s1.err = s.err ∧ s1.maxTokenSize = s.maxTokenSize ∧ s1.Inv) ∨
    (s.err = some ScanErr.EOF ∧ (splitSpec s.data true).2 = none ∧
      ∃ s1, s.iter = Flow.ret false s1 ∧ s1.err = some ScanErr.EOF ∧ s1.r = [] ∧
        s1.data = [] ∧ s1.maxTokenSize = s.maxTokenSize ∧ s1.Inv) ∨
    (s.err = none ∧ (splitSpec s.data false).2 = none ∧ s.maxTokenSize ≤ s.data.length ∧
      ∃ s1, s.iter = Flow.ret false s1 ∧ s1.err = some ScanErr.ErrTooLong ∧ s1.Inv ∧
        s1.maxTokenSize = s.maxTokenSize) ∨
    (s.err = none ∧ (splitSpec s.data false).2 = none ∧ s.data.length < s.maxTokenSize ∧
      ∃ s1, s.iter = Flow.next s1 ∧ s1.Inv ∧ s1.data ++ s1.r = s.data ++ s.r ∧
        s1.maxTokenSize = s.maxTokenSize ∧
        ((s.r = [] ∧ s1.err = some ScanErr.EOF ∧ s1.r = []) ∨
          (s.r ≠ [] ∧ s1.err = none ∧ s1.r.length < s.r.length))) := by
  obtain ⟨h1, h2, h3, h4, h5⟩ := hinv
  rcases hsp : splitSpec s.data (decide (s.err ≠ none)) with ⟨a, tok⟩
  cases tok with
  | some t =>
    left
    have hb := splitSpec_token_bounds hsp
    refine ⟨a, t,
      { s with start := s.start + a, data := s.data.drop a, token := some t, empties := 0 },
      rfl, ?_, rfl, rfl, rfl, rfl, rfl, ⟨h1, h2, ?_, h4, h5⟩⟩
    · unfold Scanner.iter
      rw [trySplit_token s a t h1 hsp]
    · simp only [List.length_drop]; omega
  | none =>
    right
    have hnone : (splitSpec s.data (decide (s.err ≠ none))).2 = none := by rw [hsp]
    obtain ⟨tk, htk⟩ := trySplit_none s h1 hnone
    rcases hready with herr | ⟨herr, hr⟩
    · right
      have hsp2 : (splitSpec s.data false).2 = none := by
        simpa [herr] using hnone
      have hinv1 : ({ s with token := tk } : Scanner).Inv := ⟨h1, h2, h3, h4, h5⟩
      rcases grow_spec { s with token := tk } herr hinv1 with
        ⟨s1, hg, hi1, he1, hlong, hmx⟩ | ⟨s1, hg, hi1, he1, hr1, hd1, hm1, hroom⟩
      · left
        refine ⟨herr, hsp2, hlong, s1, ?_, he1, hi1, hmx⟩
        unfold Scanner.iter
        rw [htk]
        simp only [hg]
      · right
        have hlt : s.data.length < s.maxTokenSize := by
          have := hi1.len_le
          simp only [hd1, hm1] at hroom this
          omega
        refine ⟨herr, hsp2, hlt, s1.fill maxConsecutiveEmptyReads, ?_, ?_⟩
        · unfold Scanner.iter
          rw [htk]
          simp only [hg]
        · simp only at hr1 hd1 hm1
          by_cases hrn : s.r = []
          · rw [fill_eof _ s1 he1 (by rw [hr1, hrn])]
            refine ⟨⟨hi1.1, hi1.2, hi1.3, hi1.4, hi1.5⟩, ?_, hm1, Or.inl ⟨hrn, rfl, ?_⟩⟩
            · simp only [hd1, hr1]
            · simp only [hr1, hrn]
          · rw [fill_read _ s1 (by rw [hr1]; exact hrn) hroom]
            have hpos : s.r.length > 0 := List.length_pos.mpr hrn
            refine ⟨⟨hi1.1, hi1.2, ?_, hi1.4, hi1.5⟩, ?_, hm1, Or.inr ⟨hrn, he1, ?_⟩⟩
            · simp only [List.length_append, List.length_take]; omega
            · simp only [List.append_assoc, List.take_append_drop, hd1, hr1]
            · simp only [List.length_drop, hr1]; omega
    · left
      have hne : s.err ≠ none := by rw [herr]; simp
      have hsp2 : (splitSpec s.data true).2 = none := by
        simpa [herr] using hnone
      refine ⟨herr, hsp2, { s with token := tk, start := 0, data := [] },
        ?_, herr, hr, rfl, rfl, ⟨h1, h2, ?_, h4, h5⟩⟩
      · unfold Scanner.iter
        rw [htk]
        simp only [grow_of_err { s with token := tk } hne]
      · simp

/-! ## What Scan returns -/

theorem scanLoop_spec (fuel : Nat) (s : Scanner) (hinv : s.Inv) (hready : s.Ready)
    (hfuel : s.r.length + (if s.err = none then 2 else 1) ≤ fuel) :
    ∃ b s1, s.scanLoop fuel = Run.done (b, s1) ∧ s1.Inv ∧ s1.maxTokenSize = s.maxTokenSize ∧
      ((b = true ∧ s1.Ready ∧ ∃ a t, splitSpec (s.data ++ s.r) true = (a, some t) ∧
          s1.token = some t ∧ s1.data ++ s1.r = (s.data ++ s.r).drop a) ∨
       (b = false ∧ s1.err = some ScanErr.EOF ∧ s1.r = [] ∧ s1.data = [] ∧
          (splitSpec (s.data ++ s.r) true).2 = none) ∨
       (b = false ∧ s1.err = some ScanErr.ErrTooLong ∧
          s.maxTokenSize ≤ (s.data ++ s.r).length)) := by
  induction fuel generalizing s with
  | zero =>
    split_ifs at hfuel <;> omega
  | succ n ih =>
    unfold Scanner.scanLoop
    rcases iter_spec s hinv hready with
      ⟨a, t, s1, hsp, hit, htok, hd, hr, he, hm, hi⟩ |
      ⟨herr, hsp, s1, hit, he, hr, hd, hm, hi⟩ |
      ⟨herr, hsp, hlong, s1, hit, he, hi, hm⟩ |
      ⟨herr, hsp, hlt, s1, hit, hi, hrem, hm, hcase⟩
    · rw [hit]
      refine ⟨true, s1, rfl, hi, hm, Or.inl ⟨rfl, ?_, a, t, ?_, htok, ?_⟩⟩
      · rcases hready with h | ⟨h, h2⟩
        · exact Or.inl (by rw [he, h])
        · exact Or.inr ⟨by rw [he, h], by rw [hr, h2]⟩
      · rcases hready with h | ⟨h, h2⟩
        · have hsp2 : splitSpec s.data false = (a, some t) := by simpa [h] using hsp
          exact splitSpec_stable s.r true hsp2
        · have hsp2 : splitSpec s.data true = (a, some t) := by simpa [h] using hsp
          rw [h2, List.append_nil]; exact hsp2
      · rw [hd, hr, drop_append_of_le _ _ _ (splitSpec_token_bounds hsp).2.1]
    · rw [hit]
      have hr0 : s.r = [] := by
        rcases hready with h | ⟨_, h2⟩
        · rw [herr] at h; cases h
        · exact h2
      refine ⟨false, s1, rfl, hi, hm, Or.inr (Or.inl ⟨rfl, he, hr, hd, ?_⟩)⟩
      rw [hr0, List.append_nil]; exact hsp
    · rw [hit]
      refine ⟨false, s1, rfl, hi, hm, Or.inr (Or.inr ⟨rfl, he, ?_⟩)⟩
      simp only [List.length_append]; omega
    · rw [hit]
      simp only
      have hready1 : s1.Ready := by
        rcases hcase with ⟨_, h1, h2⟩ | ⟨_, h1, _⟩
        · exact Or.inr ⟨h1, h2⟩
        · exact Or.inl h1
      have hfuel1 : s1.r.length + (if s1.err = none then 2 else 1) ≤ n := by
        simp only [herr, if_true] at hfuel
        rcases hcase with ⟨_, h1, h2⟩ | ⟨_, h1, h2⟩
        · simp only [h1, h2, List.length_nil]
          simp only [reduceCtorEq, if_false]
          omega
        · simp only [h1, if_true]; omega
      obtain ⟨b, s2, hrun, hi2, hm2, hpost⟩ := ih s1 hi hready1 hfuel1
      refine ⟨b, s2, hrun, hi2, by rw [hm2, hm], ?_⟩
      rw [hrem, hm] at hpost
      exact hpost

theorem Scan_eq (s : Scanner) (hdone : s.done = false) :
    s.Scan = s.scanLoop (s.r.length + 2) := by
  unfold Scanner.Scan
  simp [hdone]

theorem Scan_spec (s : Scanner) (hinv : s.Inv) (hready : s.Ready) :
    ∃ b s1, s.Scan = Run.done (b, s1) ∧ s1.Inv ∧ s1.maxTokenSize = s.maxTokenSize ∧
      ((b = true ∧ s1.Ready ∧ ∃ a t, splitSpec (s.data ++ s.r) true = (a, some t) ∧
          s1.token = some t ∧ s1.data ++ s1.r = (s.data ++ s.r).drop a) ∨
       (b = false ∧ s1.err = some ScanErr.EOF ∧ s1.r = [] ∧ s1.data = [] ∧
          (splitSpec (s.data ++ s.r) true).2 = none) ∨
       (b = false ∧ s1.err = some ScanErr.ErrTooLong ∧
          s.maxTokenSize ≤ (s.data ++ s.r).length)) := by
  rw [Scan_eq s hinv.not_done]
  apply scanLoop_spec _ s hinv hready
  split_ifs <;> omega

theorem iter_of_err (s : Scanner) (hinv : s.Inv) (herr : s.err ≠ none) :
    ∃ b s1, s.iter = Flow.ret b s1 ∧ s1.Inv ∧ s1.err = s.err := by
  obtain ⟨h1, h2, h3, h4, h5⟩ := hinv
  rcases hsp : splitSpec s.data (decide (s.err ≠ none)) with ⟨a, tok⟩
  cases tok with
  | some t =>
    have hb := splitSpec_token_bounds hsp
    refine ⟨true,
      { s with start := s.start + a, data := s.data.drop a, token := some t, empties := 0 },
      ?_, ⟨h1, h2, ?_, h4, h5⟩, rfl⟩
    · unfold Scanner.iter
      rw [trySplit_token s a t h1 hsp]
    · simp only [List.length_drop]; omega
  | none =>
    have hnone : (splitSpec s.data (decide (s.err ≠ none))).2 = none := by rw [hsp]
    obtain ⟨tk, htk⟩ := trySplit_none s h1 hnone
    refine ⟨false, { s with token := tk, start := 0, data := [] }, ?_, ⟨h1, h2, ?_, h4, h5⟩, rfl⟩
    · unfold Scanner.iter
      rw [htk]
      simp only [grow_of_err { s with token := tk } herr]
    · simp

theorem Scan_of_err (s : Scanner) (hinv : s.Inv) (herr : s.err ≠ none) :
    ∃ b s1, s.Scan = Run.done (b, s1) ∧ s1.Inv ∧ s1.err = s.err := by
  obtain ⟨b, s1, hit, hi, he⟩ := iter_of_err s hinv herr
  refine ⟨b, s1, ?_, hi, he⟩
  rw [Scan_eq s hinv.not_done]
  unfold Scanner.scanLoop
  rw [hit]

theorem scanLoop_too_long (fuel : Nat) (s : Scanner) (hinv : s.Inv) (herr : s.err = none)
    (hfuel : s.r.length + 2 ≤ fuel)
    (hlong : s.maxTokenSize ≤ (s.data ++ s.r).length)
    (hno : (splitSpec ((s.data ++ s.r).take s.maxTokenSize) false).2 = none) :
    ∃ s1, s.scanLoop fuel = Run.done (false, s1) ∧ s1.Inv ∧
      s1.err = some ScanErr.ErrTooLong := by
  induction fuel generalizing s with
  | zero => omega
  | succ n ih =>
    unfold Scanner.scanLoop
    rcases iter_spec s hinv (Or.inl herr) with
      ⟨a, t, s1, hsp, hit, htok, hd, hr, he, hm, hi⟩ |
      ⟨herr2, hsp, s1, hit, he, hr, hd, hm, hi⟩ |
      ⟨_, hsp, hlong2, s1, hit, he, hi, hm⟩ |
      ⟨_, hsp, hlt, s1, hit, hi, hrem, hm, hcase⟩
    · exfalso
      have hsp2 : splitSpec s.data false = (a, some t) := by simpa [herr] using hsp
      have hle : s.data.length ≤ s.maxTokenSize := by
        have := hinv.buf_le
        have := hinv.len_le
        omega
      have hpre : (s.data ++ s.r).take s.maxTokenSize
          = s.data ++ s.r.take (s.maxTokenSize - s.data.length) := by
        rw [List.take_append_eq_append_take, List.take_of_length_le hle]
      rw [hpre, splitSpec_stable _ false hsp2] at hno
      cases hno
    · rw [herr] at herr2; cases herr2
    · rw [hit]
      exact ⟨s1, rfl, hi, he⟩
    · rw [hit]
      simp only
      rcases hcase with ⟨h0, _, _⟩ | ⟨h0, h1, h2⟩
      · exfalso
        rw [h0, List.append_nil] at hlong
        omega
      · apply ih s1 hi h1 (by omega)
        · rw [hrem, hm]; exact hlong
        · rw [hrem, hm]; exact hno

/-! ## The loop of decodeYaml -/

theorem decodeYamlStep_token {E ρ : Type} (unmarshal : List Byte → Except E (Component ρ))
    (st : LoopState E ρ) (s1 : Scanner) (t : List Byte)
    (hscan : st.scanner.Scan = Run.done (true, s1)) (htok : s1.token = some t) :
    decodeYamlStep unmarshal st
      = Run.done (Sum.inr { scanner := s1,
                            list := st.list ++ (acceptDoc unmarshal t).toList,
                            errors := st.errors ++ (rejectDoc unmarshal t).toList }) := by
  unfold decodeYamlStep decode acceptDoc rejectDoc
  rw [hscan]
  simp only [Scanner.Bytes, htok, Option.getD_some]
  cases hu : unmarshal t with
  | error e => simp
  | ok c =>
    by_cases hk : c.Kind = componentKind
    · simp [hk]
    · simp [hk]

theorem decodeYamlStep_eof {E ρ : Type} (unmarshal : List Byte → Except E (Component ρ))
    (st : LoopState E ρ) (s1 : Scanner)
    (hscan : st.scanner.Scan = Run.done (false, s1)) (herr : s1.err = some ScanErr.EOF) :
    decodeYamlStep unmarshal st = Run.done (Sum.inl (st.list, st.errors)) := by
  unfold decodeYamlStep decode
  rw [hscan]
  simp [Scanner.Err, herr]

theorem decodeYamlStep_of_err {E ρ : Type} (unmarshal : List Byte → Except E (Component ρ))
    (st : LoopState E ρ) (b : Bool) (s1 : Scanner)
    (hscan : st.scanner.Scan = Run.done (b, s1)) (herr : s1.err = some ScanErr.ErrTooLong) :
    ∃ l e, decodeYamlStep unmarshal st
      = Run.done (Sum.inr { scanner := s1, list := l, errors := e }) := by
  unfold decodeYamlStep decode
  rw [hscan]
  cases b with
  | false =>
    simp only [Scanner.Err, herr]
    exact ⟨_, _, rfl⟩
  | true =>
    simp only
    cases hu : unmarshal s1.Bytes with
    | error e => exact ⟨_, _, rfl⟩
    | ok c =>
      by_cases hk : c.Kind = componentKind
      · simp only [hk, ne_eq, not_true_eq_false, if_false]
        exact ⟨_, _, rfl⟩
      · simp only [hk, ne_eq, not_false_eq_true, if_true]
        exact ⟨_, _, rfl⟩

theorem decodeYamlLoop_of_err {E ρ : Type} (unmarshal : List Byte → Except E (Component ρ))
    (fuel : Nat) (st : LoopState E ρ) (hinv : st.scanner.Inv)
    (herr : st.scanner.err = some ScanErr.ErrTooLong) :
    decodeYamlLoop unmarshal fuel st = Run.outOfFuel := by
  induction fuel generalizing st with
  | zero => rfl
  | succ n ih =>
    obtain ⟨b, s1, hscan, hi, he⟩ := Scan_of_err st.scanner hinv (by rw [herr]; simp)
    rw [herr] at he
    obtain ⟨l, e, hstep⟩ := decodeYamlStep_of_err unmarshal st b s1 hscan he
    unfold decodeYamlLoop
    rw [hstep]
    exact ih _ hi he

theorem splitAll_length_le (data : List Byte) :
    ∃ es, splitAll data = some es ∧ es.length ≤ data.length := by
  generalize hl : data.length = l
  induction l using Nat.strong_induction_on generalizing data with
  | _ l ih =>
    subst hl
    rcases hsp : splitSpec data true with ⟨a, tok⟩
    cases tok with
    | none =>
      exact ⟨[], splitAll_of_spec_none data (by rw [hsp]), by simp⟩
    | some t =>
      have hb := splitSpec_token_bounds hsp
      obtain ⟨es, hes, hlen⟩ := ih (data.drop a).length
        (by simp only [List.length_drop]; omega) (data.drop a) rfl
      refine ⟨_ :: es, by rw [splitAll_of_spec_some data a t hsp, hes]; rfl, ?_⟩
      simp only [List.length_drop] at hlen
      simp only [List.length_cons]; omega

theorem decodeYamlLoop_spec {E ρ : Type} (unmarshal : List Byte → Except E (Component ρ))
    (st : LoopState E ρ) (hinv : st.scanner.Inv) (hready : st.scanner.Ready) :
    ∃ es, splitAll (st.scanner.data ++ st.scanner.r) = some es ∧
      (∀ fuel res, decodeYamlLoop unmarshal fuel st = Run.done res →
        res = (st.list ++ (es.map Emit.token).filterMap (acceptDoc unmarshal),
               st.errors ++ (es.map Emit.token).filterMap (rejectDoc unmarshal))) ∧
      ((st.scanner.data ++ st.scanner.r).length < st.scanner.maxTokenSize →
        ∀ fuel, es.length + 1 ≤ fuel →
          decodeYamlLoop unmarshal fuel st
            = Run.done (st.list ++ (es.map Emit.token).filterMap (acceptDoc unmarshal),
                st.errors ++ (es.map Emit.token).filterMap (rejectDoc unmarshal))) := by
  generalize hl : (st.scanner.data ++ st.scanner.r).length = l
  induction l using Nat.strong_induction_on generalizing st with
  | _ l ih =>
    subst hl
    obtain ⟨b, s1, hscan, hi1, hm1, hpost⟩ := Scan_spec st.scanner hinv hready
    rcases hpost with ⟨rfl, hr1, a, t, hsp, htok, hrem⟩ | ⟨rfl, he1, _, _, hsp⟩ |
      ⟨rfl, he1, hlong⟩
    · have hb := splitSpec_token_bounds hsp
      have hstep := decodeYamlStep_token unmarshal st s1 t hscan htok
      have hlt : (s1.data ++ s1.r).length < (st.scanner.data ++ st.scanner.r).length := by
        rw [hrem, List.length_drop]; omega
      obtain ⟨es, hes, hpart, htot⟩ := ih _ hlt
        { scanner := s1, list := st.list ++ (acceptDoc unmarshal t).toList,
          errors := st.errors ++ (rejectDoc unmarshal t).toList } hi1 hr1 rfl
      simp only at hes hpart htot
      have hlist : ∀ (l0 : List (Component ρ)),
          l0 ++ (acceptDoc unmarshal t).toList
              ++ (es.map Emit.token).filterMap (acceptDoc unmarshal)
            = l0 ++ ((⟨(a : Int), t⟩ :: es).map Emit.token).filterMap (acceptDoc unmarshal) := by
        intro l0
        simp only [List.map_cons, List.filterMap_cons, List.append_assoc]
        cases acceptDoc unmarshal t <;> simp
      have herrs : ∀ (e0 : List (Err E)),
          e0 ++ (rejectDoc unmarshal t).toList
              ++ (es.map Emit.token).filterMap (rejectDoc unmarshal)
            = e0 ++ ((⟨(a : Int), t⟩ :: es).map Emit.token).filterMap (rejectDoc unmarshal) := by
        intro e0
        simp only [List.map_cons, List.filterMap_cons, List.append_assoc]
        cases rejectDoc unmarshal t <;> simp
      refine ⟨⟨(a : Int), t⟩ :: es, ?_, ?_, ?_⟩
      · rw [splitAll_of_spec_some _ a t hsp, ← hrem, hes]; rfl
      · intro fuel res hrun
        cases fuel with
        | zero => cases hrun
        | succ f =>
          unfold decodeYamlLoop at hrun
          rw [hstep] at hrun
          simp only at hrun
          rw [hpart f res hrun, hlist, herrs]
      · intro hshort fuel hfuel
        cases fuel with
        | zero => simp at hfuel
        | succ f =>
          unfold decodeYamlLoop
          rw [hstep]
          simp only
          rw [htot (by rw [hm1]; omega) f (by simp only [List.length_cons] at hfuel; omega),
            hlist, herrs]
    · have hstep := decodeYamlStep_eof unmarshal st s1 hscan he1
      refine ⟨[], splitAll_of_spec_none _ hsp, ?_, ?_⟩
      · intro fuel res hrun
        cases fuel with
        | zero => cases hrun
        | succ f =>
          unfold decodeYamlLoop at hrun
          rw [hstep] at hrun
          simp only [Run.done.injEq] at hrun
          rw [← hrun]
          simp
      · intro _ fuel hfuel
        cases fuel with
        | zero => simp at hfuel
        | succ f =>
          unfold decodeYamlLoop
          rw [hstep]
          simp
    · obtain ⟨es, hes⟩ := splitAll_isSome (st.scanner.data ++ st.scanner.r)
      obtain ⟨l1, e1, hstep⟩ := decodeYamlStep_of_err unmarshal st false s1 hscan he1
      refine ⟨es, hes, ?_, ?_⟩
      · intro fuel res hrun
        cases fuel with
        | zero => cases hrun
        | succ f =>
          unfold decodeYamlLoop at hrun
          rw [hstep] at hrun
          simp only at hrun
          rw [decodeYamlLoop_of_err unmarshal f _ hi1 he1] at hrun
          cases hrun
      · intro hshort
        omega

theorem newScanner_inv (b : List Byte) : (newScanner b splitYamlDoc).Inv :=
  ⟨rfl, rfl, by simp [newScanner], by simp [newScanner], by
    simp only [newScanner, MaxScanTokenSize, maxInt]; norm_num⟩

theorem decodeYaml_spec {E ρ : Type} (unmarshal : List Byte → Except E (Component ρ))
    (b : List Byte) :
    ∃ es, splitAll b = some es ∧ es.length ≤ b.length ∧
      (∀ fuel res, decodeYaml unmarshal fuel b = Run.done res →
        res = ((es.map Emit.token).filterMap (acceptDoc unmarshal),
               (es.map Emit.token).filterMap (rejectDoc unmarshal))) ∧
      (b.length < MaxScanTokenSize →
        ∀ fuel, b.length + 1 ≤ fuel →
          decodeYaml unmarshal fuel b
            = Run.done ((es.map Emit.token).filterMap (acceptDoc unmarshal),
                (es.map Emit.token).filterMap (rejectDoc unmarshal))) := by
  obtain ⟨es, hes, hpart, htot⟩ := decodeYamlLoop_spec unmarshal
    { scanner := newScanner b splitYamlDoc, list := [], errors := [] }
    (newScanner_inv b) (Or.inl rfl)
  have hrem : (newScanner b splitYamlDoc).data ++ (newScanner b splitYamlDoc).r = b := rfl
  simp only [hrem, List.nil_append] at hes hpart htot
  obtain ⟨es2, hes2, hlen⟩ := splitAll_length_le b
  rw [hes] at hes2
  cases hes2
  refine ⟨es, hes, hlen, hpart, ?_⟩
  intro hshort fuel hfuel
  exact htot hshort fuel (by omega)

/-! ## Claims about decodeYaml -/

/-- What decodeYaml returns when it returns: its component list is, in document order,
exactly the decoded documents of those splitter tokens that decode successfully and have the
kind Component, each once, and every returned component has that kind. For every input
shorter than the maximum token size of the Scanner it does return, within len(b)+1
iterations. -/
theorem decodeYaml_components {E ρ : Type} (unmarshal : List Byte → Except E (Component ρ))
    (b : List Byte) :
    ∃ es, splitAll b = some es ∧
      (∀ t c, acceptDoc unmarshal t = some c ↔
        (unmarshal t = Except.ok c ∧ c.Kind = componentKind)) ∧
      (∀ fuel res, decodeYaml unmarshal fuel b = Run.done res →
        res.1 = (es.map Emit.token).filterMap (acceptDoc unmarshal) ∧
        ∀ c ∈ res.1, c.Kind = componentKind) ∧
      (b.length < MaxScanTokenSize → ∀ fuel, b.length + 1 ≤ fuel →
        ∃ res, decodeYaml unmarshal fuel b = Run.done res ∧
          res.1 = (es.map Emit.token).filterMap (acceptDoc unmarshal)) := by
  obtain ⟨es, hes, _, hpart, htot⟩ := decodeYaml_spec unmarshal b
  have hacc : ∀ t c, acceptDoc unmarshal t = some c ↔
      (unmarshal t = Except.ok c ∧ c.Kind = componentKind) := by
    intro t c
    unfold acceptDoc
    cases hu : unmarshal t with
    | error e => simp
    | ok c1 =>
      by_cases hk : c1.Kind = componentKind
      · simp only [hk, if_true, Option.some.injEq, Except.ok.injEq]
        constructor
        · intro h; subst h; exact ⟨rfl, hk⟩
        · intro h; exact h.1
      · simp only [hk, if_false, Except.ok.injEq]
        constructor
        · intro h; cases h
        · intro h; exact absurd (h.1 ▸ h.2) hk
  refine ⟨es, hes, hacc, ?_, ?_⟩
  · intro fuel res hrun
    have hres := hpart fuel res hrun
    rw [hres]
    refine ⟨rfl, ?_⟩
    intro c hc
    simp only [List.mem_filterMap] at hc
    obtain ⟨t, _, ht⟩ := hc
    exact ((hacc t c).1 ht).2
  · intro hshort fuel hfuel
    exact ⟨_, htot hshort fuel hfuel, rfl⟩

/-- What decodeYaml returns when it returns: its error list holds, in document order,
exactly one entry for each splitter token whose decode fails and none for a token that
decodes, whatever its kind, and the accepted list is computed token by token. For every
input shorter than the maximum token size of the Scanner decodeYaml does return. -/
theorem decodeYaml_errors {E ρ : Type} (unmarshal : List Byte → Except E (Component ρ))
    (b : List Byte) :
    ∃ es, splitAll b = some es ∧
      (∀ t, (∀ e, rejectDoc unmarshal t = some (Err.yaml e) ↔ unmarshal t = Except.error e) ∧
        (rejectDoc unmarshal t = none ↔ ∃ c, unmarshal t = Except.ok c)) ∧
      (∀ fuel res, decodeYaml unmarshal fuel b = Run.done res →
        res.2 = (es.map Emit.token).filterMap (rejectDoc unmarshal) ∧
        res.1 = (es.map Emit.token).filterMap (acceptDoc unmarshal)) ∧
      (b.length < MaxScanTokenSize → ∀ fuel, b.length + 1 ≤ fuel →
        ∃ res, decodeYaml unmarshal fuel b = Run.done res ∧
          res.2 = (es.map Emit.token).filterMap (rejectDoc unmarshal)) := by
  obtain ⟨es, hes, _, hpart, htot⟩ := decodeYaml_spec unmarshal b
  refine ⟨es, hes, ?_, ?_, ?_⟩
  · intro t
    unfold rejectDoc
    cases hu : unmarshal t with
    | error e => simp
    | ok c => simp
  · intro fuel res hrun
    rw [hpart fuel res hrun]
    exact ⟨rfl, rfl⟩
  · intro hshort fuel hfuel
    exact ⟨_, htot hshort fuel hfuel, rfl⟩

theorem splitSpec_of_no_newline (data : List Byte) (h : newline ∉ data) :
    (splitSpec data false).2 = none := by
  have hidx : index? data yamlSeparator = none := by
    rw [index?_eq_none_iff]
    intro i hpre
    have h0 := sep_prefix_head hpre
    rw [List.getElem?_drop] at h0
    exact h (List.getElem?_mem h0)
  unfold splitSpec
  simp [hidx]

theorem decodeYaml_too_long {E ρ : Type} (unmarshal : List Byte → Except E (Component ρ))
    (b : List Byte) (hlong : MaxScanTokenSize ≤ b.length)
    (hno : (splitSpec (b.take MaxScanTokenSize) false).2 = none) (fuel : Nat) :
    decodeYaml unmarshal fuel b = Run.outOfFuel := by
  cases fuel with
  | zero => rfl
  | succ n =>
    have hinv := newScanner_inv b
    obtain ⟨s1, hloop, hi1, he1⟩ := scanLoop_too_long (b.length + 2)
      (newScanner b splitYamlDoc) hinv rfl (by simp [newScanner]) hlong hno
    have hscan : (newScanner b splitYamlDoc).Scan = Run.done (false, s1) := by
      rw [Scan_eq _ hinv.not_done]; exact hloop
    obtain ⟨l, e, hstep⟩ := decodeYamlStep_of_err unmarshal
      { scanner := newScanner b splitYamlDoc, list := [], errors := [] } false s1 hscan he1
    unfold decodeYaml decodeYamlLoop
    rw [hstep]
    exact decodeYamlLoop_of_err unmarshal n _ hi1 he1

theorem decodeYamlIter_of_err {E ρ : Type} (unmarshal : List Byte → Except E (Component ρ))
    (n : Nat) (st : LoopState E ρ) (hinv : st.scanner.Inv)
    (herr : st.scanner.err = some ScanErr.ErrTooLong) :
    ∃ st1, decodeYamlIter unmarshal n st = Run.done (Sum.inr st1) ∧
      st1.scanner.err = some ScanErr.ErrTooLong := by
  induction n generalizing st with
  | zero => exact ⟨st, rfl, herr⟩
  | succ n ih =>
    obtain ⟨b, s1, hscan, hi, he⟩ := Scan_of_err st.scanner hinv (by rw [herr]; simp)
    rw [herr] at he
    obtain ⟨l, e, hstep⟩ := decodeYamlStep_of_err unmarshal st b s1 hscan he
    unfold decodeYamlIter
    rw [hstep]
    exact ih _ hi he

theorem decodeYamlIter_too_long {E ρ : Type} (unmarshal : List Byte → Except E (Component ρ))
    (b : List Byte) (hlong : MaxScanTokenSize ≤ b.length)
    (hno : (splitSpec (b.take MaxScanTokenSize) false).2 = none) (n : Nat) :
    ∃ st1, decodeYamlIter unmarshal (n + 1)
        { scanner := newScanner b splitYamlDoc, list := [], errors := [] }
      = Run.done (Sum.inr st1) ∧ st1.scanner.err = some ScanErr.ErrTooLong := by
  have hinv := newScanner_inv b
  obtain ⟨s1, hloop, hi1, he1⟩ := scanLoop_too_long (b.length + 2)
    (newScanner b splitYamlDoc) hinv rfl (by simp [newScanner]) hlong hno
  have hscan : (newScanner b splitYamlDoc).Scan = Run.done (false, s1) := by
    rw [Scan_eq _ hinv.not_done]; exact hloop
  obtain ⟨l, e, hstep⟩ := decodeYamlStep_of_err unmarshal
    { scanner := newScanner b splitYamlDoc, list := [], errors := [] } false s1 hscan he1
  unfold decodeYamlIter
  rw [hstep]
  exact decodeYamlIter_of_err unmarshal n _ hi1 he1

theorem too_long_input :
    MaxScanTokenSize ≤ (List.replicate 65536 (97 : Byte)).length ∧
      (splitSpec ((List.replicate 65536 (97 : Byte)).take MaxScanTokenSize) false).2 = none := by
  constructor
  · rw [List.length_replicate]
    decide
  · apply splitSpec_of_no_newline
    intro hmem
    have h1 := List.mem_of_mem_take hmem
    have h2 := List.eq_of_mem_replicate h1
    exact absurd h2 (by decide)

/-- C7: on an input of 65536 bytes a (no separator) the loop of decodeYaml never reaches its
exit. After any number n+1 of iterations the loop is still running, with the Scanner holding
ErrTooLong, and with any bound on the iterations decodeYaml has neither returned nor
panicked: decode never returns io.EOF once the Scanner has stopped with ErrTooLong. -/
theorem decodeYaml_never_returns {E ρ : Type}
    (unmarshal : List Byte → Except E (Component ρ)) (n : Nat) :
    (∃ st, decodeYamlIter unmarshal (n + 1)
        { scanner := newScanner (List.replicate 65536 97) splitYamlDoc, list := [], errors := [] }
      = Run.done (Sum.inr st) ∧ st.scanner.err = some ScanErr.ErrTooLong) ∧
    decodeYaml unmarshal n (List.replicate 65536 97) = Run.outOfFuel :=
  ⟨decodeYamlIter_too_long unmarshal _ too_long_input.1 too_long_input.2 n,
   decodeYaml_too_long unmarshal _ too_long_input.1 too_long_input.2 n⟩

/-! ## Further claims about one call of splitYamlDoc -/

theorem mem_drop_iff_indexByte? (s : List Byte) (c : Byte) :
    c ∈ s ↔ ∃ j, indexByte? s c = some j := by
  cases h : indexByte? s c with
  | none =>
    have := (indexByte?_eq_none_iff s c).1 h
    simp [this]
  | some j =>
    have := (indexByte?_eq_some_iff s c j).1 h
    simp only [Option.some.injEq, exists_eq', iff_true]
    exact List.getElem?_mem this.1

/-- C11: while more data may still arrive, splitYamlDoc emits a token exactly when data
contains the separator and a newline occurs after its first occurrence; in every other case
it returns advance 0 and no token. The error is always nil. -/
theorem splitYamlDoc_streaming (data : List Byte) :
    ∃ r, splitYamlDoc data false = some r ∧ r.err = none ∧
      (r.token ≠ none ↔
        ∃ k, yamlSeparator <+: data.drop k ∧ (∀ i < k, ¬ yamlSeparator <+: data.drop i) ∧
          newline ∈ data.drop (k + 4)) ∧
      (r.token = none → r.advance = 0) := by
  refine ⟨_, splitYamlDoc_eq data false, rfl, ?_, ?_⟩
  · simp only [ne_eq]
    cases hidx : index? data yamlSeparator with
    | none =>
      have hs : splitSpec data false = (0, none) := by
        unfold splitSpec; simp [hidx]
      rw [hs]
      simp only [not_true_eq_false, false_iff, not_exists, not_and]
      intro k hk
      exact absurd hk ((index?_eq_none_iff _ _).1 hidx k)
    | some k =>
      have hb := index?_bound hidx
      rw [yamlSeparator_length] at hb
      have hk := (index?_eq_some_iff _ _ _).1 hidx
      have huniq : ∀ k2, yamlSeparator <+: data.drop k2 →
          (∀ i < k2, ¬ yamlSeparator <+: data.drop i) → k2 = k := by
        intro k2 h1 h2
        have := (index?_eq_some_iff data yamlSeparator k2).2 ⟨h1, h2⟩
        rw [hidx] at this
        exact (Option.some.inj this).symm
      by_cases hlen : data.length = k + 4
      · have hs : splitSpec data false = (0, none) := by
          unfold splitSpec; simp [hidx, hlen]
        rw [hs]
        simp only [not_true_eq_false, false_iff, not_exists, not_and]
        intro k2 h1 h2 hmem
        rw [huniq k2 h1 h2, List.drop_eq_nil_of_le (by omega)] at hmem
        cases hmem
      · cases hj : indexByte? (data.drop (k + 4)) newline with
        | none =>
          have hs : splitSpec data false = (0, none) := by
            unfold splitSpec; simp [hidx, hlen, hj]
          rw [hs]
          simp only [not_true_eq_false, false_iff, not_exists, not_and]
          intro k2 h1 h2 hmem
          rw [huniq k2 h1 h2] at hmem
          exact (indexByte?_eq_none_iff _ _).1 hj hmem
        | some j =>
          have hs : splitSpec data false = (k + 4 + j + 1, some (data.take k)) := by
            unfold splitSpec; simp [hidx, hlen, hj]
          rw [hs]
          simp only [reduceCtorEq, not_false_eq_true, true_iff]
          exact ⟨k, hk.1, hk.2, (mem_drop_iff_indexByte? _ _).2 ⟨j, hj⟩⟩
  · intro h
    simp only at h
    have := splitSpec_none_advance
      (show splitSpec data false = ((splitSpec data false).1, none) by rw [← h])
    simp only [this]
    rfl

theorem index?_take_none {data : List Byte} {k : Nat}
    (h : index? data yamlSeparator = some k) : index? (data.take k) yamlSeparator = none := by
  have hk := (index?_eq_some_iff _ _ _).1 h
  rw [index?_eq_none_iff]
  intro i hpre
  rw [List.drop_take] at hpre
  have hlen := hpre.length_le
  simp only [yamlSeparator_length, List.length_take, List.length_drop] at hlen
  exact hk.2 i (by omega) (hpre.trans (List.take_prefix _ _))

/-- C17: a token emitted by splitYamlDoc, for either value of atEOF, is a prefix of data and
contains no occurrence of the separator. -/
theorem token_has_no_separator (data : List Byte) (atEOF : Bool) (r : SplitResult)
    (t : List Byte) (hcall : splitYamlDoc data atEOF = some r) (htok : r.token = some t) :
    t <+: data ∧ ¬ yamlSeparator <:+: t := by
  rw [splitYamlDoc_eq] at hcall
  simp only [Option.some.injEq] at hcall
  subst hcall
  simp only at htok
  have hsp : splitSpec data atEOF = ((splitSpec data atEOF).1, some t) := by rw [← htok]
  refine ⟨(splitSpec_token_bounds hsp).2.2.2, ?_⟩
  rw [← index?_eq_none_iff_absent]
  unfold splitSpec at htok
  split at htok
  · rename_i hidx
    split at htok
    · simp only [Option.some.injEq] at htok
      rw [← htok]; exact hidx
    · cases htok
  · rename_i k hidx
    split at htok
    · split at htok
      · simp only [Option.some.injEq] at htok
        rw [← htok]; exact index?_take_none hidx
      · cases htok
    · split at htok
      · simp only [Option.some.injEq] at htok
        rw [← htok]; exact index?_take_none hidx
      · cases htok

theorem token_has_no_separator_witness :
    bytes "a" <+: bytes "a\n---x\nb\n---" ∧ ¬ yamlSeparator <:+: bytes "a" :=
  token_has_no_separator (bytes "a\n---x\nb\n---") true ⟨7, some (bytes "a"), none⟩ (bytes "a")
    (by decide) (by decide)

/-- C18: splitYamlDoc never panics (every slice expression is in bounds) and returns a nil
error, an advance between 0 and len(data), and, when it emits a token, a token no longer
than the advance together with an advance greater than 0. -/
theorem splitYamlDoc_well_formed (data : List Byte) (atEOF : Bool) :
    ∃ r, splitYamlDoc data atEOF = some r ∧ r.err = none ∧
      0 ≤ r.advance ∧ r.advance ≤ (data.length : Int) ∧
      ∀ t, r.token = some t → (t.length : Int) ≤ r.advance ∧ 0 < r.advance := by
  refine ⟨_, splitYamlDoc_eq data atEOF, rfl, ?_, ?_, ?_⟩
  · simp only; omega
  · have := splitSpec_advance_le data atEOF
    simp only; omega
  · intro t ht
    simp only at ht
    have hb := splitSpec_token_bounds
      (show splitSpec data atEOF = ((splitSpec data atEOF).1, some t) by rw [← ht])
    simp only
    omega

/-! ## Documents joined by separators -/

theorem index?_append_sep (t : List Byte) (h : ¬ yamlSeparator <:+: t) (rest : List Byte) :
    index? (t ++ yamlSeparator ++ rest) yamlSeparator = some t.length := by
  apply index?_append
  rw [index?_eq_some_iff]
  constructor
  · rw [List.drop_left]
  · intro i hi hpre
    rw [drop_append_of_le t yamlSeparator i (by omega)] at hpre
    have hlen : (t.drop i).length = t.length - i := List.length_drop i t
    by_cases h4 : 4 ≤ (t.drop i).length
    · apply h
      have hp : yamlSeparator <+: t.drop i :=
        List.prefix_of_prefix_length_le hpre (List.prefix_append _ _)
          (by rw [yamlSeparator_length]; exact h4)
      exact hp.isInfix.trans (List.drop_suffix i t).isInfix
    · have hd := sep_prefix_dashes hpre
      have hnl : (t.drop i ++ yamlSeparator)[(t.drop i).length]? = some newline := by
        rw [List.getElem?_append_right (le_refl _), Nat.sub_self]
        rfl
      have hcases : (t.drop i).length = 1 ∨ (t.drop i).length = 2 ∨ (t.drop i).length = 3 := by
        omega
      rcases hcases with h1 | h1 | h1
      · rw [h1, hd.1] at hnl; exact absurd hnl (by decide)
      · rw [h1, hd.2.1] at hnl; exact absurd hnl (by decide)
      · rw [h1, hd.2.2] at hnl; exact absurd hnl (by decide)

/-- C12: when data is t followed by the separator, with no separator inside t, splitYamlDoc
at end of stream returns the token t and the advance len(data); the following call sees the
empty buffer and signals the end of the stream, so the complete run yields the one token t. -/
theorem splitYamlDoc_trailing_separator (t : List Byte) (h : ¬ yamlSeparator <:+: t) :
    splitYamlDoc (t ++ yamlSeparator) true
        = some ⟨((t ++ yamlSeparator).length : Int), some t, none⟩ ∧
      splitYamlDoc ((t ++ yamlSeparator).drop (t ++ yamlSeparator).length) true
        = some ⟨0, none, none⟩ ∧
      splitAll (t ++ yamlSeparator) = some [⟨((t ++ yamlSeparator).length : Int), t⟩] := by
  have hidx : index? (t ++ yamlSeparator) yamlSeparator = some t.length := by
    have := index?_append_sep t h []
    rwa [List.append_nil] at this
  have hlen : (t ++ yamlSeparator).length = t.length + 4 := by
    rw [List.length_append, yamlSeparator_length]
  have hsp : splitSpec (t ++ yamlSeparator) true = ((t ++ yamlSeparator).length, some t) := by
    unfold splitSpec
    simp only [hidx, hlen, if_true, List.take_left']
  refine ⟨?_, ?_, ?_⟩
  · rw [splitYamlDoc_eq, hsp]
  · rw [List.drop_length]; decide
  · have := splitAll_sep_at_end (t ++ yamlSeparator) t.length hidx hlen
    rw [this, List.take_left' rfl]

theorem splitYamlDoc_trailing_separator_witness :
    splitYamlDoc (bytes "kind: x" ++ yamlSeparator) true
        = some ⟨((bytes "kind: x" ++ yamlSeparator).length : Int), some (bytes "kind: x"), none⟩ ∧
      splitYamlDoc ((bytes "kind: x" ++ yamlSeparator).drop
          (bytes "kind: x" ++ yamlSeparator).length) true = some ⟨0, none, none⟩ ∧
      splitAll (bytes "kind: x" ++ yamlSeparator)
        = some [⟨((bytes "kind: x" ++ yamlSeparator).length : Int), bytes "kind: x"⟩] :=
  splitYamlDoc_trailing_separator (bytes "kind: x") (by decide)

theorem splitAll_join_cons (d : List Byte) (h : ¬ yamlSeparator <:+: d) (rest : List Byte) :
    splitAll (d ++ separatorLine ++ rest)
      = (splitAll rest).map (fun es => ⟨((d.length + 4 + 0 + 1 : Nat) : Int), d⟩ :: es) := by
  have hdata : d ++ separatorLine ++ rest = d ++ yamlSeparator ++ (newline :: rest) := by
    simp [separatorLine]
  have hidx : index? (d ++ separatorLine ++ rest) yamlSeparator = some d.length := by
    rw [hdata]; exact index?_append_sep d h _
  have hlen : (d ++ separatorLine ++ rest).length ≠ d.length + 4 := by
    rw [hdata]
    simp only [List.length_append, yamlSeparator_length, List.length_cons]
    omega
  have hdrop : (d ++ separatorLine ++ rest).drop (d.length + 4) = newline :: rest := by
    rw [hdata]
    have : d.length + 4 = (d ++ yamlSeparator).length := by
      rw [List.length_append, yamlSeparator_length]
    rw [this, List.drop_left]
  have hj : indexByte? ((d ++ separatorLine ++ rest).drop (d.length + 4)) newline = some 0 := by
    rw [hdrop]
    simp [indexByte?]
  rw [splitAll_sep_line _ d.length 0 hidx hlen hj]
  have h1 : (d ++ separatorLine ++ rest).drop (d.length + 4 + 0 + 1) = rest := by
    have : d.length + 4 + 0 + 1 = (d.length + 4) + 1 := by omega
    rw [this, ← List.drop_drop, hdrop]
    rfl
  have h2 : (d ++ separatorLine ++ rest).take d.length = d := by
    rw [List.append_assoc, List.take_left' rfl]
  rw [h1, h2]

/-- C16 (round trip of join and split): for a non-empty list of documents, none containing
the separator and the last one non-empty, the complete run over the documents joined by
separator lines yields exactly these documents, in order, as its tokens. -/
theorem join_split_roundtrip (docs : List (List Byte)) (hne : docs ≠ [])
    (hsep : ∀ d ∈ docs, ¬ yamlSeparator <:+: d) (hlast : docs.getLast? ≠ some []) :
    tokensOf (splitAll (joinDocs docs)) = some docs := by
  induction docs with
  | nil => exact absurd rfl hne
  | cons d rest ih =>
    cases rest with
    | nil =>
      have hd : d ≠ [] := by
        intro h0
        apply hlast
        simp [h0]
      have hidx : index? d yamlSeparator = none :=
        (index?_eq_none_iff_absent _ _).2 (hsep d (by simp))
      simp only [joinDocs]
      rw [splitAll_no_sep d hd hidx]
      rfl
    | cons d2 rest =>
      have ih2 := ih (by simp) (fun x hx => hsep x (List.mem_cons_of_mem _ hx))
        (by rwa [List.getLast?_cons_cons] at hlast)
      simp only [joinDocs]
      rw [splitAll_join_cons d (hsep d (by simp))]
      unfold tokensOf at ih2 ⊢
      cases hrun : splitAll (joinDocs (d2 :: rest)) with
      | none => rw [hrun] at ih2; cases ih2
      | some es =>
        rw [hrun] at ih2
        simp only [Option.map_some', Option.some.injEq] at ih2
        simp only [Option.map_some', List.map_cons, ih2]

theorem join_split_roundtrip_witness :
    tokensOf (splitAll (joinDocs [bytes "a: 1", [], bytes "---b"]))
      = some [bytes "a: 1", [], bytes "---b"] :=
  join_split_roundtrip [bytes "a: 1", [], bytes "---b"] (by decide) (by decide) (by decide)

/-! ## The example of the specification -/

theorem specExample_run :
    splitAll specExample
      = some [⟨33, bytes "kind: Component\nspec:\n  a: 1"⟩, ⟨16, bytes "kind: Other"⟩,
              ⟨28, bytes "kind: Component\nspec:\n  b: 2"⟩] := by
  decide

/-- C13: on the example input of the specification the complete run yields exactly the three
documents, in order, and decodeYaml, with a decoder that decodes them to the kinds Component,
Other and Component, returns the first and third documents, in that order, and no error. -/
theorem specExample_decodeYaml {E ρ : Type} (unmarshal : List Byte → Except E (Component ρ))
    (c1 c2 c3 : Component ρ)
    (h1 : unmarshal (bytes "kind: Component\nspec:\n  a: 1") = Except.ok c1)
    (h2 : unmarshal (bytes "kind: Other") = Except.ok c2)
    (h3 : unmarshal (bytes "kind: Component\nspec:\n  b: 2") = Except.ok c3)
    (k1 : c1.Kind = "Component") (k2 : c2.Kind = "Other") (k3 : c3.Kind = "Component") :
    tokensOf (splitAll specExample) = some specExampleDocs ∧
      ∀ fuel, 4 ≤ fuel → decodeYaml unmarshal fuel specExample = Run.done ([c1, c3], []) := by
  constructor
  · rw [specExample_run]; rfl
  · intro fuel hfuel
    obtain ⟨es, hes, _, htot⟩ := decodeYamlLoop_spec unmarshal
      { scanner := newScanner specExample splitYamlDoc, list := [], errors := [] }
      (newScanner_inv specExample) (Or.inl rfl)
    have hrem : (newScanner specExample splitYamlDoc).data
        ++ (newScanner specExample splitYamlDoc).r = specExample := rfl
    simp only [hrem, List.nil_append] at hes htot
    rw [specExample_run] at hes
    cases hes
    have hshort : specExample.length < (newScanner specExample splitYamlDoc).maxTokenSize := by
      decide
    have hrun := htot hshort fuel (by simpa using hfuel)
    unfold decodeYaml
    rw [hrun]
    have hk2 : ¬ c2.Kind = componentKind := by rw [k2]; decide
    have hk1 : c1.Kind = componentKind := by rw [k1]; rfl
    have hk3 : c3.Kind = componentKind := by rw [k3]; rfl
    simp [acceptDoc, rejectDoc, h1, h2, h3, hk1, hk2, hk3]

theorem specExample_decodeYaml_witness :
    tokensOf (splitAll specExample) = some specExampleDocs ∧
      ∀ fuel, 4 ≤ fuel → decodeYaml specExampleUnmarshal fuel specExample
        = Run.done ([⟨"Component", bytes "kind: Component\nspec:\n  a: 1"⟩,
                     ⟨"Component", bytes "kind: Component\nspec:\n  b: 2"⟩], []) :=
  specExample_decodeYaml specExampleUnmarshal _ ⟨"Other", bytes "kind: Other"⟩ _
    (by unfold specExampleUnmarshal; rw [if_pos (by decide)])
    (by unfold specExampleUnmarshal; rw [if_neg (by decide), if_pos (by decide)])
    (by unfold specExampleUnmarshal; rw [if_pos (by decide)]) rfl rfl rfl

/-! ## File names -/

theorem ToLower_ascii (mapLower : List Byte → List Byte) (s : List Byte)
    (h : s.all (fun c => c < 128) = true) : ToLower mapLower s = s.map lowerByte := by
  unfold ToLower
  rw [if_pos h]
  by_cases hu : s.any (fun c => 65 ≤ c ∧ c ≤ 90) = true
  · rw [if_pos hu]
  · rw [if_neg hu]
    symm
    conv_rhs => rw [← List.map_id s]
    apply List.map_congr_left
    intro c hc
    unfold lowerByte
    have : ¬ (65 ≤ c ∧ c ≤ 90) := by
      intro hcc
      apply hu
      rw [List.any_eq_true]
      exact ⟨c, hc, by simpa using hcc⟩
    rw [if_neg this]
    rfl

theorem getD_append_mid (pre e : List Byte) (c : Byte) :
    (pre ++ c :: e).getD pre.length 0 = c := by
  rw [List.getD_eq_getElem?_getD, List.getElem?_append_right (le_refl _), Nat.sub_self]
  simp

theorem getD_append_tail (pre e : List Byte) (m : Nat) (hm : m < e.length) :
    (pre ++ e).getD (pre.length + m) 0 ∈ e := by
  rw [List.getD_eq_getElem?_getD, List.getElem?_append_right (by omega)]
  have : pre.length + m - pre.length = m := by omega
  rw [this, List.getElem?_eq_getElem hm]
  exact List.getElem_mem hm

theorem extLoop_dot (pre e : List Byte) (hdot : dotByte ∉ e) (hslash : slashByte ∉ e)
    (m : Nat) (hm : m ≤ e.length) :
    extLoop (pre ++ dotByte :: e) (pre.length + 1 + m) = dotByte :: e := by
  induction m with
  | zero =>
    simp only [Nat.add_zero, extLoop, getD_append_mid]
    have h1 : ¬ (IsPathSeparator dotByte = true) := by decide
    rw [if_neg h1, if_pos trivial, List.drop_left]
  | succ m ih =>
    have hmem : (pre ++ dotByte :: e).getD (pre.length + 1 + m) 0 ∈ e := by
      have := getD_append_tail (pre ++ [dotByte]) e m (by omega)
      simpa using this
    have h1 : ¬ (IsPathSeparator ((pre ++ dotByte :: e).getD (pre.length + 1 + m) 0) = true) := by
      intro hsep
      simp only [IsPathSeparator, beq_iff_eq] at hsep
      rw [hsep] at hmem
      exact hslash hmem
    have h2 : ¬ ((pre ++ dotByte :: e).getD (pre.length + 1 + m) 0 = dotByte) := by
      intro hd
      rw [hd] at hmem
      exact hdot hmem
    have e1 : pre.length + 1 + (m + 1) = (pre.length + 1 + m) + 1 := by omega
    rw [e1, extLoop, if_neg h1, if_neg h2]
    exact ih (by omega)

theorem Ext_of_last_dot (pre e : List Byte) (hdot : dotByte ∉ e) (hslash : slashByte ∉ e) :
    Ext (pre ++ dotByte :: e) = dotByte :: e := by
  unfold Ext
  have : (pre ++ dotByte :: e).length = pre.length + 1 + e.length := by
    simp only [List.length_append, List.length_cons]; omega
  rw [this]
  exact extLoop_dot pre e hdot hslash e.length le_rfl

theorem extLoop_no_dot (pre base : List Byte) (hpre : pre = [] ∨ ∃ q, pre = q ++ [slashByte])
    (hdot : dotByte ∉ base) (hslash : slashByte ∉ base) (m : Nat) (hm : m ≤ base.length) :
    extLoop (pre ++ base) (pre.length + m) = [] := by
  induction m with
  | zero =>
    rcases hpre with rfl | ⟨q, rfl⟩
    · rfl
    · have e1 : (q ++ [slashByte]).length + 0 = q.length + 1 := by simp
      rw [e1, extLoop, List.append_assoc, List.singleton_append, getD_append_mid]
      have h1 : IsPathSeparator slashByte = true := by decide
      rw [if_pos h1]
  | succ m ih =>
    have hmem := getD_append_tail pre base m (by omega)
    have h1 : ¬ (IsPathSeparator ((pre ++ base).getD (pre.length + m) 0) = true) := by
      intro hsep
      simp only [IsPathSeparator, beq_iff_eq] at hsep
      rw [hsep] at hmem
      exact hslash hmem
    have h2 : ¬ ((pre ++ base).getD (pre.length + m) 0 = dotByte) := by
      intro hd
      rw [hd] at hmem
      exact hdot hmem
    have e1 : pre.length + (m + 1) = (pre.length + m) + 1 := by omega
    rw [e1, extLoop, if_neg h1, if_neg h2]
    exact ih (by omega)

theorem Ext_of_no_dot (pre base : List Byte) (hpre : pre = [] ∨ ∃ q, pre = q ++ [slashByte])
    (hdot : dotByte ∉ base) (hslash : slashByte ∉ base) : Ext (pre ++ base) = [] := by
  unfold Ext
  rw [List.length_append]
  exact extLoop_no_dot pre base hpre hdot hslash base.length le_rfl

/-- C14: isYaml returns true exactly when the lower-cased extension of the name is .yaml or
.yml, where the extension is the suffix that starts at the last dot of the final path
element and is empty when that element has no dot. For an extension of ASCII bytes the
lower-casing is byte by byte, so the test ignores case: a.YAML and a.Yml are accepted, and
a.yaml.bak, yaml and a.yamlx are rejected. -/
theorem isYaml_iff (mapLower : List Byte → List Byte) (fileName : List Byte) :
    (isYaml mapLower fileName = true ↔
      (ToLower mapLower (Ext fileName) = bytes ".yaml" ∨
        ToLower mapLower (Ext fileName) = bytes ".yml")) ∧
    (∀ pre e, fileName = pre ++ dotByte :: e → dotByte ∉ e → slashByte ∉ e →
      Ext fileName = dotByte :: e) ∧
    (∀ pre base, fileName = pre ++ base → (pre = [] ∨ ∃ q, pre = q ++ [slashByte]) →
      dotByte ∉ base → slashByte ∉ base → Ext fileName = []) ∧
    ((Ext fileName).all (fun c => c < 128) = true →
      (isYaml mapLower fileName = true ↔
        ((Ext fileName).map lowerByte = bytes ".yaml" ∨
          (Ext fileName).map lowerByte = bytes ".yml"))) ∧
    (isYaml mapLower (bytes "a.YAML") = true ∧ isYaml mapLower (bytes "a.Yml") = true ∧
      isYaml mapLower (bytes "a.yaml") = true ∧ isYaml mapLower (bytes "a.yml") = true ∧
      isYaml mapLower (bytes "a.yaml.bak") = false ∧ isYaml mapLower (bytes "yaml") = false ∧
      isYaml mapLower (bytes "a.yamlx") = false) := by
  have hiff : isYaml mapLower fileName = true ↔
      (ToLower mapLower (Ext fileName) = bytes ".yaml" ∨
        ToLower mapLower (Ext fileName) = bytes ".yml") := by
    unfold isYaml
    simp only
    split_ifs with h
    · simp [h]
    · simp [h]
  refine ⟨hiff, ?_, ?_, ?_, ?_⟩
  · intro pre e hname hdot hslash
    rw [hname]; exact Ext_of_last_dot pre e hdot hslash
  · intro pre base hname hpre hdot hslash
    rw [hname]; exact Ext_of_no_dot pre base hpre hdot hslash
  · intro hascii
    rw [hiff, ToLower_ascii mapLower _ hascii]
  · exact ⟨rfl, rfl, rfl, rfl, rfl, rfl, rfl⟩

theorem isYaml_iff_witness :
    Ext (bytes "conf.d/redis.YAML") = dotByte :: bytes "YAML" ∧
      Ext (bytes "conf.d/README") = [] ∧
      isYaml id (bytes "conf.d/redis.YAML") = true :=
  ⟨(isYaml_iff id (bytes "conf.d/redis.YAML")).2.1 (bytes "conf.d/redis") (bytes "YAML")
      (by decide) (by decide) (by decide),
   (isYaml_iff id (bytes "conf.d/README")).2.2.1 (bytes "conf.d/") (bytes "README")
      (by decide) (Or.inr ⟨bytes "conf.d", by decide⟩) (by decide) (by decide),
   ((isYaml_iff id (bytes "conf.d/redis.YAML")).2.2.2.1 (by decide)).2 (Or.inl (by decide))⟩

/-! ## LoadComponents -/

theorem loadComponentsLoop_spec {R E ρ : Type} (unmarshal : List Byte → Except E (Component ρ))
    (mapLower : List Byte → List Byte) (readFile : List Byte → Except R (List Byte))
    (fuel : Nat) (files : List FileInfo) (list : List (Component ρ))
    (log : List (Warning R E)) :
    (∀ l w, loadComponentsLoop unmarshal mapLower readFile fuel files list log = Run.done (l, w) →
      l = list ++ (files.map (fileContribution unmarshal mapLower readFile fuel)).flatten) ∧
    ((∀ f ∈ files, f.IsDir = false → isYaml mapLower f.Name = true →
        ∀ b, readFile f.Name = Except.ok b → ∃ r, decodeYaml unmarshal fuel b = Run.done r) →
      ∃ w, loadComponentsLoop unmarshal mapLower readFile fuel files list log
        = Run.done
            (list ++ (files.map (fileContribution unmarshal mapLower readFile fuel)).flatten,
              w)) := by
  induction files generalizing list log with
  | nil =>
    constructor
    · intro l w h
      simp only [loadComponentsLoop, Run.done.injEq, Prod.mk.injEq] at h
      simp [h.1]
    · intro _
      exact ⟨log, by simp [loadComponentsLoop]⟩
  | cons file files ih =>
    by_cases hel : file.IsDir = false ∧ isYaml mapLower file.Name = true
    · cases hread : readFile file.Name with
      | error err =>
        have hc : fileContribution unmarshal mapLower readFile fuel file = [] := by
          unfold fileContribution
          rw [if_pos hel, hread]
        have hloop : loadComponentsLoop unmarshal mapLower readFile fuel (file :: files) list log
            = loadComponentsLoop unmarshal mapLower readFile fuel files list
                (log ++ [Warning.readFile file.Name err]) := by
          conv_lhs => unfold loadComponentsLoop
          rw [if_pos hel]
          simp [loadComponentsFromFile, hread]
        rw [hloop]
        simp only [List.map_cons, List.flatten_cons, hc, List.nil_append]
        obtain ⟨ihA, ihB⟩ := ih list (log ++ [Warning.readFile file.Name err])
        exact ⟨ihA, fun h => ihB (fun f hf => h f (List.mem_cons_of_mem _ hf))⟩
      | ok b =>
        cases hdec : decodeYaml unmarshal fuel b with
        | done res =>
          obtain ⟨components, errors⟩ := res
          have hc : fileContribution unmarshal mapLower readFile fuel file = components := by
            unfold fileContribution
            rw [if_pos hel, hread]
            simp only [hdec]
          have hlist : (if components.length > 0 then list ++ components else list)
              = list ++ components := by
            split_ifs with hpos
            · rfl
            · have : components = [] := List.length_eq_zero.mp (by omega)
              simp [this]
          have hloop : loadComponentsLoop unmarshal mapLower readFile fuel (file :: files) list log
              = loadComponentsLoop unmarshal mapLower readFile fuel files (list ++ components)
                  (log ++ errors.map (Warning.parse file.Name)) := by
            conv_lhs => unfold loadComponentsLoop
            rw [if_pos hel]
            simp only [loadComponentsFromFile, hread, hdec, hlist]
          rw [hloop]
          simp only [List.map_cons, List.flatten_cons, hc, ← List.append_assoc]
          obtain ⟨ihA, ihB⟩ := ih (list ++ components)
            (log ++ errors.map (Warning.parse file.Name))
          exact ⟨ihA, fun h => ihB (fun f hf => h f (List.mem_cons_of_mem _ hf))⟩
        | panic =>
          have hloop : loadComponentsLoop unmarshal mapLower readFile fuel (file :: files) list log
              = Run.panic := by
            conv_lhs => unfold loadComponentsLoop
            rw [if_pos hel]
            simp only [loadComponentsFromFile, hread, hdec]
          rw [hloop]
          constructor
          · intro l w h; cases h
          · intro h
            obtain ⟨r, hr⟩ := h file (List.mem_cons_self _ _) hel.1 hel.2 b hread
            rw [hdec] at hr; cases hr
        | outOfFuel =>
          have hloop : loadComponentsLoop unmarshal mapLower readFile fuel (file :: files) list log
              = Run.outOfFuel := by
            conv_lhs => unfold loadComponentsLoop
            rw [if_pos hel]
            simp only [loadComponentsFromFile, hread, hdec]
          rw [hloop]
          constructor
          · intro l w h; cases h
          · intro h
            obtain ⟨r, hr⟩ := h file (List.mem_cons_self _ _) hel.1 hel.2 b hread
            rw [hdec] at hr; cases hr
    · have hc : fileContribution unmarshal mapLower readFile fuel file = [] := by
        unfold fileContribution
        rw [if_neg hel]
      have hloop : loadComponentsLoop unmarshal mapLower readFile fuel (file :: files) list log
          = loadComponentsLoop unmarshal mapLower readFile fuel files list log := by
        conv_lhs => unfold loadComponentsLoop
        rw [if_neg hel]
      rw [hloop]
      simp only [List.map_cons, List.flatten_cons, hc, List.nil_append]
      obtain ⟨ihA, ihB⟩ := ih list log
      exact ⟨ihA, fun h => ihB (fun f hf => h f (List.mem_cons_of_mem _ hf))⟩

theorem decodeYaml_returns {E ρ : Type} (unmarshal : List Byte → Except E (Component ρ))
    (b : List Byte) (fuel : Nat) (hshort : b.length < MaxScanTokenSize)
    (hfuel : b.length + 1 ≤ fuel) : ∃ r, decodeYaml unmarshal fuel b = Run.done r := by
  obtain ⟨es, _, _, _, htot⟩ := decodeYaml_spec unmarshal b
  exact ⟨_, htot hshort fuel hfuel⟩

/-- What LoadComponents returns when it returns: the error of the enumeration when the
enumeration fails, and an error only then; otherwise, with a nil error, the concatenation in
enumeration order of the component lists that decodeYaml returns for the entries that are
not directories, have a YAML name and are readable, every other entry contributing nothing.
LoadComponents returns whenever decodeYaml returns for each of these files, in particular
when every file is shorter than the maximum token size of the Scanner. -/
theorem LoadComponents_spec {D R E ρ : Type} (unmarshal : List Byte → Except E (Component ρ))
    (mapLower : List Byte → List Byte) (readDir : Except D (List FileInfo))
    (readFile : List Byte → Except R (List Byte)) (fuel : Nat) :
    (∀ err, readDir = Except.error err →
      LoadComponents unmarshal mapLower readDir readFile fuel
        = Run.done (Except.error err, [])) ∧
    (∀ res log, LoadComponents unmarshal mapLower readDir readFile fuel = Run.done (res, log) →
      ((∃ err, res = Except.error err) ↔ ∃ err, readDir = Except.error err)) ∧
    (∀ files, readDir = Except.ok files →
      (∀ res log,
        LoadComponents unmarshal mapLower readDir readFile fuel = Run.done (res, log) →
        res = Except.ok
          (files.map (fileContribution unmarshal mapLower readFile fuel)).flatten) ∧
      ((∀ f ∈ files, f.IsDir = false → isYaml mapLower f.Name = true →
          ∀ b, readFile f.Name = Except.ok b →
            ∃ r, decodeYaml unmarshal fuel b = Run.done r) →
        ∃ log, LoadComponents unmarshal mapLower readDir readFile fuel
          = Run.done (Except.ok
              (files.map (fileContribution unmarshal mapLower readFile fuel)).flatten, log)) ∧
      ((∀ f ∈ files, ∀ b, readFile f.Name = Except.ok b →
          b.length < MaxScanTokenSize ∧ b.length + 1 ≤ fuel) →
        ∃ log, LoadComponents unmarshal mapLower readDir readFile fuel
          = Run.done (Except.ok
              (files.map (fileContribution unmarshal mapLower readFile fuel)).flatten, log))) ∧
    (∀ file, (file.IsDir = true ∨ isYaml mapLower file.Name = false ∨
        (∃ err, readFile file.Name = Except.error err)) →
      fileContribution unmarshal mapLower readFile fuel file = []) ∧
    (∀ file b res, file.IsDir = false → isYaml mapLower file.Name = true →
      readFile file.Name = Except.ok b → decodeYaml unmarshal fuel b = Run.done res →
      fileContribution unmarshal mapLower readFile fuel file = res.1) := by
  have hok : ∀ files, readDir = Except.ok files →
      (∀ res log,
        LoadComponents unmarshal mapLower readDir readFile fuel = Run.done (res, log) →
        res = Except.ok
          (files.map (fileContribution unmarshal mapLower readFile fuel)).flatten) ∧
      ((∀ f ∈ files, f.IsDir = false → isYaml mapLower f.Name = true →
          ∀ b, readFile f.Name = Except.ok b →
            ∃ r, decodeYaml unmarshal fuel b = Run.done r) →
        ∃ log, LoadComponents unmarshal mapLower readDir readFile fuel
          = Run.done (Except.ok
              (files.map (fileContribution unmarshal mapLower readFile fuel)).flatten,
              log)) := by
    intro files hdir
    subst hdir
    obtain ⟨hA, hB⟩ := loadComponentsLoop_spec unmarshal mapLower readFile fuel files [] []
    simp only [List.nil_append] at hA hB
    constructor
    · intro res log hrun
      unfold LoadComponents at hrun
      simp only at hrun
      cases hloop : loadComponentsLoop unmarshal mapLower readFile fuel files [] [] with
      | panic => rw [hloop] at hrun; cases hrun
      | outOfFuel => rw [hloop] at hrun; cases hrun
      | done r =>
        obtain ⟨l, w⟩ := r
        rw [hloop] at hrun
        simp only [Run.done.injEq, Prod.mk.injEq] at hrun
        rw [← hrun.1, hA l w hloop]
    · intro h
      obtain ⟨w, hw⟩ := hB h
      refine ⟨w, ?_⟩
      unfold LoadComponents
      simp only [hw]
  refine ⟨?_, ?_, ?_, ?_, ?_⟩
  · intro err hdir
    subst hdir
    rfl
  · intro res log hrun
    cases hdir : readDir with
    | error err =>
      subst hdir
      simp only [LoadComponents, Run.done.injEq, Prod.mk.injEq] at hrun
      constructor
      · intro _; exact ⟨err, rfl⟩
      · intro _; exact ⟨err, hrun.1.symm⟩
    | ok files =>
      have := (hok files hdir).1 res log hrun
      rw [this]
      constructor
      · rintro ⟨err, herr⟩; cases herr
      · rintro ⟨err, herr⟩; cases herr
  · intro files hdir
    refine ⟨(hok files hdir).1, (hok files hdir).2, ?_⟩
    intro hsmall
    apply (hok files hdir).2
    intro f hf _ _ b hb
    exact decodeYaml_returns unmarshal b fuel (hsmall f hf b hb).1 (hsmall f hf b hb).2
  · intro file h
    unfold fileContribution
    by_cases hel : file.IsDir = false ∧ isYaml mapLower file.Name = true
    · rw [if_pos hel]
      rcases h with h | h | ⟨err, h⟩
      · rw [hel.1] at h; cases h
      · rw [hel.2] at h; cases h
      · rw [h]
    · rw [if_neg hel]
  · intro file b res h1 h2 h3 h4
    unfold fileContribution
    rw [if_pos ⟨h1, h2⟩, h3]
    simp only [h4]

theorem fileContribution_small {R E ρ : Type}
    (unmarshal : List Byte → Except E (Component ρ)) (mapLower : List Byte → List Byte)
    (readFile : List Byte → Except R (List Byte)) (fuel : Nat) (file : FileInfo)
    (b : List Byte) (es : List Emit) (h1 : file.IsDir = false)
    (h2 : isYaml mapLower file.Name = true) (h3 : readFile file.Name = Except.ok b)
    (hshort : b.length < MaxScanTokenSize) (hfuel : b.length + 1 ≤ fuel)
    (hes : splitAll b = some es) :
    fileContribution unmarshal mapLower readFile fuel file
      = (es.map Emit.token).filterMap (acceptDoc unmarshal) := by
  obtain ⟨es2, hes2, _, _, htot⟩ := decodeYaml_spec unmarshal b
  rw [hes] at hes2
  cases hes2
  unfold fileContribution
  rw [if_pos ⟨h1, h2⟩, h3]
  simp only [htot hshort fuel hfuel]

/-- The reach of the non-terminating loop of decodeYaml: a directory whose only file is a
YAML file of 65536 bytes a makes LoadComponents run forever as well. -/
theorem LoadComponents_never_returns {D R E ρ : Type}
    (unmarshal : List Byte → Except E (Component ρ)) (mapLower : List Byte → List Byte)
    (fuel : Nat) :
    LoadComponents (D := D) (R := R) unmarshal mapLower
        (Except.ok [⟨bytes "big.yaml", false⟩]) (fun _ => Except.ok (List.replicate 65536 97)) fuel
      = Run.outOfFuel := by
  have hy : isYaml mapLower (bytes "big.yaml") = true := rfl
  have hdec := decodeYaml_too_long unmarshal (List.replicate 65536 97)
    too_long_input.1 too_long_input.2 fuel
  unfold LoadComponents
  simp only
  unfold loadComponentsLoop
  rw [if_pos ⟨rfl, hy⟩]
  simp only [loadComponentsFromFile, hdec]

/-! ## A document that fits in the buffer is delivered -/

theorem splitSpec_of_take {x : List Byte} {k a : Nat} {t : List Byte} (e : Bool)
    (h : splitSpec (x.take k) false = (a, some t)) : splitSpec x e = (a, some t) := by
  have := splitSpec_stable (x.drop k) e h
  rwa [List.take_append_drop] at this

theorem scanLoop_token (fuel : Nat) (s : Scanner) (hinv : s.Inv) (herr : s.err = none)
    (hfuel : s.r.length + 2 ≤ fuel) (k a : Nat) (t : List Byte) (hk : k ≤ s.maxTokenSize)
    (hsp : splitSpec ((s.data ++ s.r).take k) false = (a, some t)) :
    ∃ s1, s.scanLoop fuel = Run.done (true, s1) ∧ s1.Inv ∧ s1.err = none ∧
      s1.maxTokenSize = s.maxTokenSize ∧ s1.token = some t ∧
      s1.data ++ s1.r = (s.data ++ s.r).drop a := by
  induction fuel generalizing s with
  | zero => omega
  | succ n ih =>
    unfold Scanner.scanLoop
    have hfull : ∀ e, splitSpec (s.data ++ s.r) e = (a, some t) := fun e =>
      splitSpec_of_take e hsp
    rcases iter_spec s hinv (Or.inl herr) with
      ⟨a0, t0, s1, hsp0, hit, htok, hd, hr, he, hm, hi⟩ |
      ⟨herr2, _, _⟩ |
      ⟨_, hnone, hlong, _⟩ |
      ⟨_, hnone, hlt, s1, hit, hi, hrem, hm, hcase⟩
    · have hsp1 : splitSpec s.data false = (a0, some t0) := by simpa [herr] using hsp0
      have hsame := splitSpec_stable s.r true hsp1
      rw [hfull true] at hsame
      simp only [Prod.mk.injEq, Option.some.injEq] at hsame
      obtain ⟨rfl, rfl⟩ := hsame
      rw [hit]
      refine ⟨s1, rfl, hi, by rw [he, herr], hm, htok, ?_⟩
      rw [hd, hr, drop_append_of_le _ _ _ (splitSpec_token_bounds hsp1).2.1]
    · rw [herr] at herr2; cases herr2
    · exfalso
      have hpre : (s.data ++ s.r).take k = s.data.take k :=
        List.take_append_of_le_length (by omega)
      rw [hpre] at hsp
      rw [splitSpec_of_take false hsp] at hnone
      cases hnone
    · rw [hit]
      simp only
      rcases hcase with ⟨h0, _, _⟩ | ⟨h0, h1, h2⟩
      · exfalso
        have := hfull false
        rw [h0, List.append_nil] at this
        rw [this] at hnone
        cases hnone
      · obtain ⟨s2, hrun, hi2, he2, hm2, htok2, hrem2⟩ :=
          ih s1 hi h1 (by omega) (by rw [hm]; exact hk) (by rw [hrem]; exact hsp)
        exact ⟨s2, hrun, hi2, he2, by rw [hm2, hm], htok2, by rw [hrem2, hrem]⟩

theorem decodeYamlStep_tooLong {E ρ : Type} (unmarshal : List Byte → Except E (Component ρ))
    (st : LoopState E ρ) (s1 : Scanner)
    (hscan : st.scanner.Scan = Run.done (false, s1))
    (herr : s1.err = some ScanErr.ErrTooLong) :
    decodeYamlStep unmarshal st
      = Run.done (Sum.inr { scanner := s1, list := st.list,
                            errors := st.errors ++ [Err.io ScanErr.ErrTooLong] }) := by
  unfold decodeYamlStep decode
  rw [hscan]
  simp [Scanner.Err, herr]

theorem decodeYamlStep_of_err_grows {E ρ : Type}
    (unmarshal : List Byte → Except E (Component ρ))
    (st : LoopState E ρ) (b : Bool) (s1 : Scanner)
    (hscan : st.scanner.Scan = Run.done (b, s1)) (herr : s1.err = some ScanErr.ErrTooLong) :
    ∃ l e, decodeYamlStep unmarshal st
        = Run.done (Sum.inr { scanner := s1, list := l, errors := e }) ∧
      st.list <+: l ∧ st.errors <+: e := by
  cases b with
  | false =>
    exact ⟨_, _, decodeYamlStep_tooLong unmarshal st s1 hscan herr, List.prefix_refl _,
      List.prefix_append _ _⟩
  | true =>
    unfold decodeYamlStep decode
    rw [hscan]
    simp only
    cases hu : unmarshal s1.Bytes with
    | error e => exact ⟨_, _, rfl, List.prefix_refl _, List.prefix_append _ _⟩
    | ok c =>
      by_cases hk : c.Kind = componentKind
      · simp only [hk, ne_eq, not_true_eq_false, if_false]
        exact ⟨_, _, rfl, List.prefix_append _ _, List.prefix_refl _⟩
      · simp only [hk, ne_eq, not_false_eq_true, if_true]
        exact ⟨_, _, rfl, List.prefix_refl _, List.prefix_refl _⟩

theorem decodeYamlIter_of_err_grows {E ρ : Type}
    (unmarshal : List Byte → Except E (Component ρ))
    (n : Nat) (st : LoopState E ρ) (hinv : st.scanner.Inv)
    (herr : st.scanner.err = some ScanErr.ErrTooLong) :
    ∃ st1, decodeYamlIter unmarshal n st = Run.done (Sum.inr st1) ∧
      st.list <+: st1.list ∧ st.errors <+: st1.errors := by
  induction n generalizing st with
  | zero => exact ⟨st, rfl, List.prefix_refl _, List.prefix_refl _⟩
  | succ n ih =>
    obtain ⟨b, s1, hscan, hi, he⟩ := Scan_of_err st.scanner hinv (by rw [herr]; simp)
    rw [herr] at he
    obtain ⟨l, e, hstep, hl, hee⟩ := decodeYamlStep_of_err_grows unmarshal st b s1 hscan he
    obtain ⟨st1, hrun, hl1, he1⟩ := ih { scanner := s1, list := l, errors := e } hi he
    refine ⟨st1, ?_, hl.trans hl1, hee.trans he1⟩
    unfold decodeYamlIter
    rw [hstep]
    exact hrun

/-! ## A document followed by one that is too long -/

theorem splitSpec_sep_line (d : List Byte) (h : ¬ yamlSeparator <:+: d) (rest : List Byte)
    (e : Bool) : splitSpec (d ++ separatorLine ++ rest) e = (d.length + 5, some d) := by
  have hdata : d ++ separatorLine ++ rest = d ++ yamlSeparator ++ (newline :: rest) := by
    simp [separatorLine]
  have hidx : index? (d ++ separatorLine ++ rest) yamlSeparator = some d.length := by
    rw [hdata]; exact index?_append_sep d h _
  have hlen : (d ++ separatorLine ++ rest).length ≠ d.length + 4 := by
    rw [hdata]
    simp only [List.length_append, yamlSeparator_length, List.length_cons]
    omega
  have hdrop : (d ++ separatorLine ++ rest).drop (d.length + 4) = newline :: rest := by
    rw [hdata]
    have : d.length + 4 = (d ++ yamlSeparator).length := by
      rw [List.length_append, yamlSeparator_length]
    rw [this, List.drop_left]
  have hj : indexByte? ((d ++ separatorLine ++ rest).drop (d.length + 4)) newline = some 0 := by
    rw [hdrop]
    simp [indexByte?]
  have h2 : (d ++ separatorLine ++ rest).take d.length = d := by
    rw [List.append_assoc, List.take_left' rfl]
  unfold splitSpec
  simp only [hidx, hlen, if_false, hj, h2]

theorem separatorLine_length : separatorLine.length = 5 := by decide

theorem replicate_no_newline (n : Nat) : newline ∉ List.replicate n (97 : Byte) := by
  intro hmem
  exact absurd (List.eq_of_mem_replicate hmem) (by decide)

theorem decodeYaml_doc_then_too_long {E ρ : Type}
    (unmarshal : List Byte → Except E (Component ρ)) (d big : List Byte)
    (hd : ¬ yamlSeparator <:+: d) (hfit : d.length + 5 ≤ MaxScanTokenSize)
    (hbig : MaxScanTokenSize ≤ big.length) (hnl : newline ∉ big) (n : Nat) :
    (∃ st, decodeYamlIter unmarshal (n + 2)
        { scanner := newScanner (d ++ separatorLine ++ big) splitYamlDoc, list := [], errors := [] }
      = Run.done (Sum.inr st) ∧
      (acceptDoc unmarshal d).toList <+: st.list ∧
      (rejectDoc unmarshal d).toList ++ [Err.io ScanErr.ErrTooLong] <+: st.errors) ∧
    decodeYaml unmarshal n (d ++ separatorLine ++ big) = Run.outOfFuel := by
  have hinv := newScanner_inv (d ++ separatorLine ++ big)
  have hrem0 : (newScanner (d ++ separatorLine ++ big) splitYamlDoc).data
      ++ (newScanner (d ++ separatorLine ++ big) splitYamlDoc).r
      = d ++ separatorLine ++ big := rfl
  have htake : (d ++ separatorLine ++ big).take (d.length + 5) = d ++ separatorLine := by
    have : d.length + 5 = (d ++ separatorLine).length := by
      rw [List.length_append, separatorLine_length]
    rw [this, List.take_left' rfl]
  have hsp : splitSpec (((newScanner (d ++ separatorLine ++ big) splitYamlDoc).data
      ++ (newScanner (d ++ separatorLine ++ big) splitYamlDoc).r).take (d.length + 5)) false
      = (d.length + 5, some d) := by
    rw [hrem0, htake]
    have := splitSpec_sep_line d hd [] false
    rwa [List.append_nil] at this
  obtain ⟨s1, hloop1, hi1, he1, hm1, htok1, hrem1⟩ :=
    scanLoop_token ((d ++ separatorLine ++ big).length + 2)
      (newScanner (d ++ separatorLine ++ big) splitYamlDoc) hinv rfl
      (by simp [newScanner]) (d.length + 5) (d.length + 5) d hfit hsp
  have hscan1 : (newScanner (d ++ separatorLine ++ big) splitYamlDoc).Scan
      = Run.done (true, s1) := by
    rw [Scan_eq _ hinv.not_done]; exact hloop1
  have hstep1 := decodeYamlStep_token unmarshal
    { scanner := newScanner (d ++ separatorLine ++ big) splitYamlDoc, list := [], errors := [] }
    s1 d hscan1 htok1
  simp only [List.nil_append] at hstep1
  have hrem1b : s1.data ++ s1.r = big := by
    rw [hrem1, hrem0]
    have : d.length + 5 = (d ++ separatorLine).length := by
      rw [List.length_append, separatorLine_length]
    rw [this, List.drop_left]
  have hmax1 : s1.maxTokenSize = MaxScanTokenSize := by rw [hm1]; rfl
  obtain ⟨s2, hloop2, hi2, he2⟩ := scanLoop_too_long (s1.r.length + 2) s1 hi1 he1 le_rfl
    (by rw [hrem1b, hmax1]; exact hbig)
    (by
      rw [hrem1b]
      apply splitSpec_of_no_newline
      intro hmem
      exact hnl (List.mem_of_mem_take hmem))
  have hscan2 : s1.Scan = Run.done (false, s2) := by
    rw [Scan_eq _ hi1.not_done]; exact hloop2
  have hstep2 := decodeYamlStep_tooLong unmarshal
    { scanner := s1, list := (acceptDoc unmarshal d).toList,
      errors := (rejectDoc unmarshal d).toList } s2 hscan2 he2
  simp only at hstep2
  constructor
  · obtain ⟨st, hrun, hl, hee⟩ := decodeYamlIter_of_err_grows unmarshal n
      { scanner := s2, list := (acceptDoc unmarshal d).toList,
        errors := (rejectDoc unmarshal d).toList ++ [Err.io ScanErr.ErrTooLong] } hi2 he2
    refine ⟨st, ?_, hl, hee⟩
    unfold decodeYamlIter
    rw [hstep1]
    simp only
    unfold decodeYamlIter
    rw [hstep2]
    exact hrun
  · cases n with
    | zero => rfl
    | succ n =>
      unfold decodeYaml decodeYamlLoop
      rw [hstep1]
      simp only
      cases n with
      | zero => rfl
      | succ n =>
        unfold decodeYamlLoop
        rw [hstep2]
        exact decodeYamlLoop_of_err unmarshal n _ hi2 he2

theorem index?_of_no_newline (data : List Byte) (h : newline ∉ data) :
    index? data yamlSeparator = none := by
  rw [index?_eq_none_iff]
  intro i hpre
  have h0 := sep_prefix_head hpre
  rw [List.getElem?_drop] at h0
  exact h (List.getElem?_mem h0)

theorem splitAll_doc_then_long (d : List Byte) (hd : ¬ yamlSeparator <:+: d) :
    tokensOf (splitAll (d ++ separatorLine ++ List.replicate 65536 97))
      = some [d, List.replicate 65536 97] := by
  have hne : List.replicate 65536 (97 : Byte) ≠ [] := by
    intro h0
    have := congrArg List.length h0
    rw [List.length_replicate] at this
    exact absurd this (by decide)
  rw [splitAll_join_cons d hd,
    splitAll_no_sep _ hne (index?_of_no_newline _ (replicate_no_newline 65536))]
  rfl

/-- C5: on the input made of the document kind: Component, a separator line and 65536 bytes
a, the first splitter token is a document that decodes successfully to the kind Component.
The loop of decodeYaml takes it into its list, and then never exits: after any number of
iterations it is still running, so no component list is ever returned and the accepted
document appears in none. The cause is the loop of C7, which does not stop on ErrTooLong. -/
theorem decodeYaml_accepted_document_never_returned {E ρ : Type}
    (unmarshal : List Byte → Except E (Component ρ)) (c : Component ρ)
    (h : unmarshal (bytes "kind: Component") = Except.ok c) (hk : c.Kind = componentKind)
    (n : Nat) :
    tokensOf (splitAll (bytes "kind: Component\n---\n" ++ List.replicate 65536 97))
      = some [bytes "kind: Component", List.replicate 65536 97] ∧
    (∃ st, decodeYamlIter unmarshal (n + 2)
        { scanner := newScanner (bytes "kind: Component\n---\n" ++ List.replicate 65536 97) splitYamlDoc, list := [], errors := [] }
      = Run.done (Sum.inr st) ∧ [c] <+: st.list) ∧
    decodeYaml unmarshal n (bytes "kind: Component\n---\n" ++ List.replicate 65536 97) = Run.outOfFuel := by
  have hb : bytes "kind: Component\n---\n" = bytes "kind: Component" ++ separatorLine := by
    decide
  have hd : ¬ yamlSeparator <:+: bytes "kind: Component" := by decide
  have hacc : (acceptDoc unmarshal (bytes "kind: Component")).toList = [c] := by
    unfold acceptDoc
    rw [h]
    simp [hk]
  rw [hb]
  obtain ⟨⟨st, hrun, hl, _⟩, hnever⟩ := decodeYaml_doc_then_too_long unmarshal
    (bytes "kind: Component") (List.replicate 65536 97) hd (by decide)
    too_long_input.1 (replicate_no_newline 65536) n
  rw [hacc] at hl
  exact ⟨splitAll_doc_then_long _ hd, ⟨st, hrun, hl⟩, hnever⟩

theorem decodeYaml_accepted_document_never_returned_witness :
    tokensOf (splitAll (bytes "kind: Component\n---\n" ++ List.replicate 65536 97))
      = some [bytes "kind: Component", List.replicate 65536 97] ∧
    (∃ st, decodeYamlIter specExampleUnmarshal (0 + 2)
        { scanner := newScanner (bytes "kind: Component\n---\n" ++ List.replicate 65536 97) splitYamlDoc, list := [], errors := [] }
      = Run.done (Sum.inr st) ∧
      [(⟨"Component", bytes "kind: Component"⟩ : Component (List Byte))] <+: st.list) ∧
    decodeYaml specExampleUnmarshal 0 (bytes "kind: Component\n---\n" ++ List.replicate 65536 97) = Run.outOfFuel :=
  decodeYaml_accepted_document_never_returned specExampleUnmarshal
    ⟨"Component", bytes "kind: Component"⟩
    (by unfold specExampleUnmarshal; rw [if_pos (by decide)]) rfl 0

/-- C6: on the input made of the malformed document kind: [, a separator line and 65536
bytes a, the loop of decodeYaml records the decode error of the first token and then the
Scanner error ErrTooLong, which is the decode error of no token, and never exits: after any
number of iterations it is still running with these entries at the head of its error list,
so no error list is ever returned. The cause is the loop of C7. -/
theorem decodeYaml_errors_never_returned {E ρ : Type}
    (unmarshal : List Byte → Except E (Component ρ)) (e : E)
    (h : unmarshal (bytes "kind: [") = Except.error e) (n : Nat) :
    tokensOf (splitAll (bytes "kind: [\n---\n" ++ List.replicate 65536 97)) = some [bytes "kind: [", List.replicate 65536 97] ∧
    (∃ st, decodeYamlIter unmarshal (n + 2)
        { scanner := newScanner (bytes "kind: [\n---\n" ++ List.replicate 65536 97) splitYamlDoc, list := [], errors := [] }
      = Run.done (Sum.inr st) ∧
      [Err.yaml e, Err.io ScanErr.ErrTooLong] <+: st.errors) ∧
    decodeYaml unmarshal n (bytes "kind: [\n---\n" ++ List.replicate 65536 97) = Run.outOfFuel := by
  have hb : bytes "kind: [\n---\n" = bytes "kind: [" ++ separatorLine := by decide
  have hd : ¬ yamlSeparator <:+: bytes "kind: [" := by decide
  have hrej : (rejectDoc unmarshal (bytes "kind: [")).toList = [Err.yaml e] := by
    unfold rejectDoc
    rw [h]
    rfl
  rw [hb]
  obtain ⟨⟨st, hrun, _, hee⟩, hnever⟩ := decodeYaml_doc_then_too_long unmarshal
    (bytes "kind: [") (List.replicate 65536 97) hd (by decide)
    too_long_input.1 (replicate_no_newline 65536) n
  rw [hrej] at hee
  exact ⟨splitAll_doc_then_long _ hd, ⟨st, hrun, hee⟩, hnever⟩

theorem decodeYaml_errors_never_returned_witness :
    tokensOf (splitAll (bytes "kind: [\n---\n" ++ List.replicate 65536 97)) = some [bytes "kind: [", List.replicate 65536 97] ∧
    (∃ st, decodeYamlIter specExampleUnmarshal (0 + 2)
        { scanner := newScanner (bytes "kind: [\n---\n" ++ List.replicate 65536 97) splitYamlDoc, list := [], errors := [] }
      = Run.done (Sum.inr st) ∧
      [Err.yaml "yaml: unknown kind", Err.io ScanErr.ErrTooLong] <+: st.errors) ∧
    decodeYaml specExampleUnmarshal 0 (bytes "kind: [\n---\n" ++ List.replicate 65536 97) = Run.outOfFuel :=
  decodeYaml_errors_never_returned specExampleUnmarshal "yaml: unknown kind"
    (by unfold specExampleUnmarshal; rw [if_neg (by decide), if_neg (by decide)]) 0

/-- C15: in a directory with the two readable YAML files big.yaml, one document of 65536
bytes a, and small.yaml, one Component, the enumeration succeeds and small.yaml alone would
contribute its component, yet LoadComponents never returns: the call of decodeYaml on
big.yaml runs forever (the loop of C7), so the load is blocked and the component of the
other file is never delivered. -/
theorem LoadComponents_blocked_by_long_document {D R E ρ : Type}
    (unmarshal : List Byte → Except E (Component ρ)) (mapLower : List Byte → List Byte)
    (c : Component ρ) (h : unmarshal (bytes "kind: Component") = Except.ok c)
    (hk : c.Kind = componentKind) (fuel : Nat) :
    fileContribution unmarshal mapLower (longDocumentReadFile (R := R)) 16
        ⟨bytes "small.yaml", false⟩ = [c] ∧
    LoadComponents (D := D) (R := R) unmarshal mapLower (Except.ok longDocumentDir)
        longDocumentReadFile fuel = Run.outOfFuel := by
  constructor
  · have hread : longDocumentReadFile (R := R) (bytes "small.yaml")
        = Except.ok (bytes "kind: Component") := by
      unfold longDocumentReadFile
      rw [if_neg (by decide)]
    rw [fileContribution_small unmarshal mapLower longDocumentReadFile 16
      ⟨bytes "small.yaml", false⟩ (bytes "kind: Component") [⟨15, bytes "kind: Component"⟩]
      rfl rfl hread (by decide) (by decide) (by decide)]
    simp [acceptDoc, h, hk]
  · have hy : isYaml mapLower (bytes "big.yaml") = true := rfl
    have hread : longDocumentReadFile (R := R) (bytes "big.yaml")
        = Except.ok (List.replicate 65536 97) := by
      unfold longDocumentReadFile
      rw [if_pos rfl]
    have hdec := decodeYaml_too_long unmarshal (List.replicate 65536 97)
      too_long_input.1 too_long_input.2 fuel
    unfold LoadComponents longDocumentDir
    simp only
    unfold loadComponentsLoop
    rw [if_pos ⟨rfl, hy⟩]
    simp only [loadComponentsFromFile, hread, hdec]

theorem LoadComponents_blocked_by_long_document_witness :
    fileContribution specExampleUnmarshal id (longDocumentReadFile (R := String)) 16
        ⟨bytes "small.yaml", false⟩ = [⟨"Component", bytes "kind: Component"⟩] ∧
    LoadComponents (D := String) (R := String) specExampleUnmarshal id
        (Except.ok longDocumentDir) longDocumentReadFile 1000 = Run.outOfFuel :=
  LoadComponents_blocked_by_long_document specExampleUnmarshal id
    ⟨"Component", bytes "kind: Component"⟩
    (by unfold specExampleUnmarshal; rw [if_pos (by decide)]) rfl 1000

end Components
